import Mathlib

/-!
Verification of the Space/Sample algebra and the batched wildfire entity store
of the free-range-rust repository, as a shallow embedding in Lean 4.

Conventions of the embedding:

* Rust machine integers (`i32`, `u8`, `u16`, `u64`, `usize`) are modelled as
  `Int`/`Nat`; no theorem below exercises wraparound, and the source never
  relies on it in the modelled paths.
* `rand::StdRng` is modelled abstractly: a function giving, for every
  (seed, draw-index) pair, the value `gen_range(lo..hi)` would return.  The
  predicate `RngOk` records the contract that the drawn value lies in a
  nonempty requested range.  `StdRng::seed_from_u64` is deterministic, so the
  Rust sampler is a pure function of (space value, seed, rng algorithm): the
  abstract function parameter is exactly that algorithm.
* `gen_range` on an empty range panics in Rust.  Panics are the only source
  of partiality in the modelled code, so the samplers return `Option`, with
  `none` standing for the panic.
* Rust's `HashMap` (used by `DictSpace`) is modelled as an association list
  whose order is the map's iteration order.  The iteration order of one
  unchanged map value is stable, but it is a function of hashing/storage, not
  of the keys' lexicographic order; two maps equal as key-to-space mappings
  can iterate in different orders.
-/

namespace FreeRange

/-- Abstract model of `StdRng::seed_from_u64(seed)` followed by the
`draw`-th call of `gen_range(lo..hi)` (half-open; the source's inclusive
`gen_range(l..=h)` is taken as `gen_range(l..h+1)`). -/
abbrev Rng := Nat → Nat → Int → Int → Int

/-- Contract of `gen_range` on a nonempty range: the result is in range. -/
def RngOk (g : Rng) : Prop :=
  ∀ seed draw lo hi, lo < hi → lo ≤ g seed draw lo hi ∧ g seed draw lo hi < hi

/-- One concrete admissible rng algorithm, used to instantiate witnesses and
counterexamples. -/
def gTest : Rng := fun seed draw lo hi =>
  lo + (((seed + draw) % (hi - lo).toNat : Nat) : Int)

theorem gTest_ok : RngOk gTest := by
  intro seed draw lo hi h
  have hpos : 0 < (hi - lo).toNat := by omega
  have hlt : (seed + draw) % (hi - lo).toNat < (hi - lo).toNat :=
    Nat.mod_lt (seed + draw) hpos
  unfold gTest
  omega

/-- The `Space` trait objects of `src/core/src/spaces.rs` (`Discrete`,
`OneOf`, `Box`, `TupleSpace`, `DictSpace`, `VectorSpace`), as a closed sum:
the variant set is fixed in the source. -/
inductive Space where
  | discrete (n start : Int)
  | oneOf (spaces : List Space)
  | box (low high : List Int)
  | tuple (spaces : List Space)
  | dict (spaces : List (String × Space))
  | vector (spaces : List Space)
deriving Repr

/-- The `Sample` values of `src/core/src/spaces.rs` (`DiscreteSample`,
`OneOfSample`, `BoxSample`, `TupleSample`, `DictSample`, `VectorSample`). -/
inductive Sample where
  | discrete (v : Int)
  | oneOf (idx : Nat) (s : Sample)
  | box (v : List Int)
  | tuple (v : List Sample)
  | dict (v : List (String × Sample))
  | vector (v : List Sample)
deriving Repr

/-- The per-component draw loop of `Box::sample_with_seed`: one rng, one
`gen_range(l..=h)` per zipped `(low, high)` pair; an empty inclusive range
(`h < l`) panics. -/
def boxDraw (g : Rng) (seed draw : Nat) : List (Int × Int) → Option (List Int)
  | [] => some []
  | (l, h) :: rest =>
      if h < l then none
      else do
        let tl ← boxDraw g seed (draw + 1) rest
        some (g seed draw l (h + 1) :: tl)

mutual

/-- `Space::sample_with_seed(seed)` of `src/core/src/spaces.rs`, with the rng
algorithm abstracted as `g`.  Each variant creates
`StdRng::seed_from_u64(seed)` and draws from it; `none` models the
`gen_range`-on-empty-range panic.  `Discrete` draws
`gen_range(start..start+n)`; `OneOf` draws an index over all children (no
eligibility filter) and reseeds the chosen child with `seed + 1`; `Box` draws
`gen_range(low[i]..=high[i])` per zipped component from one rng;
`TupleSpace`/`DictSpace`/`VectorSpace` reseed child `i` with `seed + i`
(`DictSpace` in the map's iteration order, modelled by the list order). -/
def sample_with_seed (g : Rng) : Space → Nat → Option Sample
  | .discrete n start, seed =>
      if n ≤ 0 then none
      else some (.discrete (g seed 0 start (start + n)))
  | .oneOf spaces, seed =>
      if spaces.length = 0 then none
      else
        let idx := (g seed 0 0 spaces.length).toNat
        (sampleNth g spaces idx (seed + 1)).map (.oneOf idx)
  | .box low high, seed => (boxDraw g seed 0 (low.zip high)).map .box
  | .tuple spaces, seed => (sampleChildren g spaces seed 0).map .tuple
  | .dict kvs, seed => (sampleEntries g kvs seed 0).map .dict
  | .vector spaces, seed => (sampleChildren g spaces seed 0).map .vector

/-- `self.spaces[idx].sample_with_seed(seed)`: sampling of the `idx`-th child
(`none` also when `idx` is out of bounds, which `RngOk` rules out). -/
def sampleNth (g : Rng) : List Space → Nat → Nat → Option Sample
  | [], _, _ => none
  | s :: _, 0, seed => sample_with_seed g s seed
  | _ :: rest, idx + 1, seed => sampleNth g rest idx seed

/-- The `map(|(i, s)| s.sample_with_seed(seed + i))` loop of
`TupleSpace::sample_with_seed` / `VectorSpace::sample_with_seed`. -/
def sampleChildren (g : Rng) : List Space → Nat → Nat → Option (List Sample)
  | [], _, _ => some []
  | s :: rest, seed, i => do
      let smp ← sample_with_seed g s (seed + i)
      let tl ← sampleChildren g rest seed (i + 1)
      some (smp :: tl)

/-- The `map(|(i, (k, s))| (k, s.sample_with_seed(seed + i)))` loop of
`DictSpace::sample_with_seed`, over the map's iteration order. -/
def sampleEntries (g : Rng) : List (String × Space) → Nat → Nat → Option (List (String × Sample))
  | [], _, _ => some []
  | (k, s) :: rest, seed, i => do
      let smp ← sample_with_seed g s (seed + i)
      let tl ← sampleEntries g rest seed (i + 1)
      some ((k, smp) :: tl)

end

/-- Abstract model of the per-call `StdRng::from_entropy()` generators used by
`Space::sample()`: every sub-space call site creates its own entropy-seeded
rng, identified here by the path of child indices from the root.  A value of
this type fixes one possible outcome of all those entropy draws. -/
abbrev Entropy := List Nat → Nat → Int → Int → Int

/-- In-range contract for an entropy outcome, mirroring `RngOk`. -/
def EntropyOk (e : Entropy) : Prop :=
  ∀ path draw lo hi, lo < hi → lo ≤ e path draw lo hi ∧ e path draw lo hi < hi

/-- A concrete admissible entropy outcome for witnesses. -/
def eTest : Entropy := fun path draw lo hi =>
  lo + (((path.sum + draw) % (hi - lo).toNat : Nat) : Int)

theorem eTest_ok : EntropyOk eTest := by
  intro path draw lo hi h
  have hpos : 0 < (hi - lo).toNat := by omega
  have hlt : (path.sum + draw) % (hi - lo).toNat < (hi - lo).toNat :=
    Nat.mod_lt (path.sum + draw) hpos
  unfold eTest
  omega

/-- The per-component draw loop of `Box::sample` (entropy rng at `path`). -/
def boxDrawE (e : Entropy) (path : List Nat) (draw : Nat) : List (Int × Int) → Option (List Int)
  | [] => some []
  | (l, h) :: rest =>
      if h < l then none
      else do
        let tl ← boxDrawE e path (draw + 1) rest
        some (e path draw l (h + 1) :: tl)

mutual

/-- `Space::sample()` of `src/core/src/spaces.rs`: identical structure to
`sample_with_seed`, except every call site draws from its own
`StdRng::from_entropy()` (no seed threading at all); the entropy outcome is
abstracted by `e`, indexed by the call-site path.  `none` models the
`gen_range` panic on an empty range. -/
def sample (e : Entropy) : Space → List Nat → Option Sample
  | .discrete n start, path =>
      if n ≤ 0 then none
      else some (.discrete (e path 0 start (start + n)))
  | .oneOf spaces, path =>
      if spaces.length = 0 then none
      else
        let idx := (e path 0 0 spaces.length).toNat
        (sampleNthE e spaces idx (path ++ [idx])).map (.oneOf idx)
  | .box low high, path => (boxDrawE e path 0 (low.zip high)).map .box
  | .tuple spaces, path => (sampleChildrenE e spaces path 0).map .tuple
  | .dict kvs, path => (sampleEntriesE e kvs path 0).map .dict
  | .vector spaces, path => (sampleChildrenE e spaces path 0).map .vector

/-- `self.spaces[idx].sample()` for the entropy sampler. -/
def sampleNthE (e : Entropy) : List Space → Nat → List Nat → Option Sample
  | [], _, _ => none
  | s :: _, 0, path => sample e s path
  | _ :: rest, idx + 1, path => sampleNthE e rest idx path

/-- The `map(|s| s.sample())` loop of `TupleSpace::sample` /
`VectorSpace::sample`: child `i` samples with its own entropy rng. -/
def sampleChildrenE (e : Entropy) : List Space → List Nat → Nat → Option (List Sample)
  | [], _, _ => some []
  | s :: rest, path, i => do
      let smp ← sample e s (path ++ [i])
      let tl ← sampleChildrenE e rest path (i + 1)
      some (smp :: tl)

/-- The `map(|(k, s)| (k, s.sample()))` loop of `DictSpace::sample`. -/
def sampleEntriesE (e : Entropy) :
    List (String × Space) → List Nat → Nat → Option (List (String × Sample))
  | [], _, _ => some []
  | (k, s) :: rest, path, i => do
      let smp ← sample e s (path ++ [i])
      let tl ← sampleEntriesE e rest path (i + 1)
      some ((k, smp) :: tl)

end

/-- The recursion of `Box::enumerate`: for each zipped bound pair in order,
iterate `l..=h` outermost-first, so the last component varies fastest. -/
def boxEnum : List (Int × Int) → List (List Int)
  | [] => [[]]
  | (l, h) :: rest =>
      ((List.range (h + 1 - l).toNat).map fun i : Nat => l + (i : Int)).flatMap fun v =>
        (boxEnum rest).map (v :: ·)

mutual

/-- `Space::enumerate()` of `src/core/src/spaces.rs`.  `Discrete` yields
`start..start+n` in order; `Box` the row-major product of its component
ranges; `OneOf` the concatenation of its children's enumerations, each sample
tagged with its child index; `TupleSpace`, `DictSpace` and **also**
`VectorSpace` the cartesian product of their children's enumerations with the
rightmost child varying fastest (the `VectorSpace` body is the same
`enumerate_rec` cartesian product as `TupleSpace`, wrapping results in
`VectorSample`). -/
def Space.enumerate : Space → List Sample
  | .discrete n start => (List.range n.toNat).map fun i : Nat => .discrete (start + (i : Int))
  | .oneOf spaces => enumTagged spaces 0
  | .box low high => (boxEnum (low.zip high)).map .box
  | .tuple spaces => (enumProd spaces).map .tuple
  | .dict kvs => (enumEntriesProd kvs).map .dict
  | .vector spaces => (enumProd spaces).map .vector

/-- The `flat_map(|(i, s)| s.enumerate().map(|smp| OneOfSample(i, smp)))`
loop of `OneOf::enumerate`. -/
def enumTagged : List Space → Nat → List Sample
  | [], _ => []
  | s :: rest, i => (Space.enumerate s).map (.oneOf i) ++ enumTagged rest (i + 1)

/-- The `enumerate_rec` cartesian product of `TupleSpace::enumerate` and
`VectorSpace::enumerate`: the head child is the outer loop. -/
def enumProd : List Space → List (List Sample)
  | [] => [[]]
  | s :: rest => (Space.enumerate s).flatMap fun smp => (enumProd rest).map (smp :: ·)

/-- The `enumerate_rec` of `DictSpace::enumerate`, over the key iteration
order (modelled by the list order): the first key is the outer loop. -/
def enumEntriesProd : List (String × Space) → List (List (String × Sample))
  | [] => [[]]
  | (k, s) :: rest =>
      (Space.enumerate s).flatMap fun smp => (enumEntriesProd rest).map ((k, smp) :: ·)

end

mutual

/-- Panic-freedom precondition for the samplers (not present in the source,
which simply panics): every `Discrete` has `n > 0`, every `OneOf` child list
is nonempty, and every zipped `Box` bound pair satisfies `low ≤ high`. -/
def Space.wf : Space → Bool
  | .discrete n _ => 0 < n
  | .oneOf spaces => !spaces.isEmpty && wfList spaces
  | .box low high => (low.zip high).all fun p => p.1 ≤ p.2
  | .tuple spaces => wfList spaces
  | .dict kvs => wfEntries kvs
  | .vector spaces => wfList spaces

/-- All spaces in a list are panic-free. -/
def wfList : List Space → Bool
  | [] => true
  | s :: rest => Space.wf s && wfList rest

/-- All spaces in an association list are panic-free. -/
def wfEntries : List (String × Space) → Bool
  | [] => true
  | (_, s) :: rest => Space.wf s && wfEntries rest

end

/-!
The batched entity store of `src/core/src/wildfire/state.rs`.  Arena-backed
mutable slices become Lean lists (`u8`/`u16`/`usize` as `Nat`, `Uuid` as
`Nat`); `&mut self` methods become state-passing functions.  Rust's
`slice[i] = v` and `slice.swap(i, j)` panic out of bounds; the list
operations below are total (out-of-range `List.set` is the identity and
`listSwap` falls back to the unchanged list), and every theorem keeps its
indices in bounds, so the two semantics agree on all modelled runs.
`self.offsets[env_idx]` (a panic when `env_idx` is out of range) is modelled
by `getD` with a default never reached under the theorems' bounds
hypotheses. -/

/-- `slice.swap(i, j)`. -/
def listSwap {α : Type} (l : List α) (i j : Nat) : List α :=
  match l.get? i, l.get? j with
  | some a, some b => (l.set i b).set j a
  | _, _ => l

/-- `&arr[start..stop]`. -/
def slice {α : Type} (l : List α) (start stop : Nat) : List α :=
  (l.take stop).drop start

/-- `WildfireError` of `src/core/src/wildfire/error.rs` (the variants the
modelled operations produce). -/
inductive WildfireError where
  | agentIndexOutOfBounds (idx : Nat)
  | fireIndexOutOfBounds (idx : Nat)
  | agentCapacityExceeded (attempted max : Nat)
  | fireCapacityExceeded (attempted max : Nat)
deriving Repr, DecidableEq

/-- `EnvState` (the fire store): structure-of-arrays columns `y`, `x`,
`size`, `intensity` for fires, the per-environment `(start, end)` offset
windows, and the dense per-cell `fuel` grid (indexed `env*grid_len + cell`),
all in one struct as in the source. -/
structure EnvState where
  max_fires : Nat
  offsets : List (Nat × Nat)
  fuel : List Nat
  y : List Nat
  x : List Nat
  size : List Nat
  intensity : List Nat
deriving Repr, DecidableEq

/-- `EnvState::new`: every window starts empty at `(i*max_fires,
i*max_fires)`; columns are zeroed with length `num_envs*max_fires`; the fuel
grid is zeroed with length `num_envs*grid.0*grid.1`. -/
def EnvState.new (num_envs max_fires : Nat) (grid : Nat × Nat) : EnvState :=
  { max_fires := max_fires
    offsets := (List.range num_envs).map fun i => (i * max_fires, i * max_fires)
    size := List.replicate (num_envs * max_fires) 0
    intensity := List.replicate (num_envs * max_fires) 0
    y := List.replicate (num_envs * max_fires) 0
    x := List.replicate (num_envs * max_fires) 0
    fuel := List.replicate (num_envs * (grid.1 * grid.2)) 0 }

/-- `EnvState::clear`: reset every window to `(i*max_fires, i*max_fires)`
without touching the columns. -/
def EnvState.clear (s : EnvState) : EnvState :=
  { s with offsets :=
      (List.range s.offsets.length).map fun i => (i * s.max_fires, i * s.max_fires) }

/-- `EnvState::add_fire`: fail with `FireCapacityExceeded` when the window is
full (`end >= start + max_fires`), else write the record's fields at index
`end` and increment `end`. -/
def EnvState.add_fire (s : EnvState) (env_idx : Nat) (fire : Nat × Nat × Nat × Nat) :
    Except WildfireError EnvState :=
  let w := s.offsets.getD env_idx (0, 0)
  if w.1 + s.max_fires ≤ w.2 then
    .error (.fireCapacityExceeded (w.2 - w.1 + 1) s.max_fires)
  else
    .ok { s with
      y := s.y.set w.2 fire.1
      x := s.x.set w.2 fire.2.1
      size := s.size.set w.2 fire.2.2.1
      intensity := s.intensity.set w.2 fire.2.2.2
      offsets := s.offsets.set env_idx (w.1, w.2 + 1) }

/-- `EnvState::remove_fire`, translated exactly as written: fail with
`FireIndexOutOfBounds` when `remove_idx >= end - start`; otherwise, guarded
by the source's comparison of the local `remove_idx` against the global
`last_idx = end - 1`, swap the `size`, `intensity` and `fuel` columns at
`(start + remove_idx, last_idx)` — the source swaps neither `y` nor `x`, and
does swap the per-cell `fuel` grid at fire-slot indices — then decrement
`end`. -/
def EnvState.remove_fire (s : EnvState) (env_idx remove_idx : Nat) :
    Except WildfireError EnvState :=
  let w := s.offsets.getD env_idx (0, 0)
  if w.2 - w.1 ≤ remove_idx then
    .error (.fireIndexOutOfBounds remove_idx)
  else
    let last_idx := w.2 - 1
    let s' :=
      if remove_idx ≠ last_idx then
        { s with
          size := listSwap s.size (w.1 + remove_idx) last_idx
          intensity := listSwap s.intensity (w.1 + remove_idx) last_idx
          fuel := listSwap s.fuel (w.1 + remove_idx) last_idx }
      else s
    .ok { s' with offsets := s'.offsets.set env_idx (w.1, w.2 - 1) }

/-- `EnvState::add_fires`: add each record in order, stopping at the first
error (`?` propagation). -/
def EnvState.add_fires (s : EnvState) (env_idx : Nat) (fires : List (Nat × Nat × Nat × Nat)) :
    Except WildfireError EnvState :=
  List.foldlM (fun acc f => EnvState.add_fire acc env_idx f) s fires

/-- The live fire records of one environment, as `EnvState::index_view`
exposes them: the `[start, end)` slice of each column, zipped. -/
def EnvState.fire_view (s : EnvState) (env_idx : Nat) : List (Nat × Nat × Nat × Nat) :=
  let w := s.offsets.getD env_idx (0, 0)
  (((slice s.y w.1 w.2).zip (slice s.x w.1 w.2)).zip
      ((slice s.size w.1 w.2).zip (slice s.intensity w.1 w.2))).map
    fun p => (p.1.1, p.1.2, p.2.1, p.2.2)

/-- An agent record `(name, y, x, power, suppressant, capacity, equipment)`
with the `Uuid` name modelled as `Nat`. -/
abbrev AgentRec := Nat × Nat × Nat × Nat × Nat × Nat × Nat

/-- `AgentState` (the agent store): columns `name`, `y`, `x`, `power`,
`suppressant`, `capacity`, `equipment` plus the offset windows. -/
structure AgentState where
  max_agents : Nat
  offsets : List (Nat × Nat)
  name : List Nat
  y : List Nat
  x : List Nat
  power : List Nat
  suppressant : List Nat
  capacity : List Nat
  equipment : List Nat
deriving Repr, DecidableEq

/-- `AgentState::new`: empty windows at `(i*max_agents, i*max_agents)`,
zeroed columns of length `num_envs*max_agents`. -/
def AgentState.new (num_envs max_agents : Nat) : AgentState :=
  { max_agents := max_agents
    offsets := (List.range num_envs).map fun i => (i * max_agents, i * max_agents)
    name := List.replicate (num_envs * max_agents) 0
    y := List.replicate (num_envs * max_agents) 0
    x := List.replicate (num_envs * max_agents) 0
    power := List.replicate (num_envs * max_agents) 0
    suppressant := List.replicate (num_envs * max_agents) 0
    capacity := List.replicate (num_envs * max_agents) 0
    equipment := List.replicate (num_envs * max_agents) 0 }

/-- `AgentState::clear`. -/
def AgentState.clear (s : AgentState) : AgentState :=
  { s with offsets :=
      (List.range s.offsets.length).map fun i => (i * s.max_agents, i * s.max_agents) }

/-- `AgentState::add_agent`: fail with `AgentCapacityExceeded` when the
window is full, else write all seven fields at `end` and increment `end`. -/
def AgentState.add_agent (s : AgentState) (env_idx : Nat) (a : AgentRec) :
    Except WildfireError AgentState :=
  let w := s.offsets.getD env_idx (0, 0)
  if w.1 + s.max_agents ≤ w.2 then
    .error (.agentCapacityExceeded (w.2 - w.1 + 1) s.max_agents)
  else
    .ok { s with
      name := s.name.set w.2 a.1
      y := s.y.set w.2 a.2.1
      x := s.x.set w.2 a.2.2.1
      power := s.power.set w.2 a.2.2.2.1
      suppressant := s.suppressant.set w.2 a.2.2.2.2.1
      capacity := s.capacity.set w.2 a.2.2.2.2.2.1
      equipment := s.equipment.set w.2 a.2.2.2.2.2.2
      offsets := s.offsets.set env_idx (w.1, w.2 + 1) }

/-- `AgentState::remove_agent`: the same swap-delete skeleton as
`remove_fire` (including the local-vs-global guard), but swapping all seven
agent columns. -/
def AgentState.remove_agent (s : AgentState) (env_idx remove_idx : Nat) :
    Except WildfireError AgentState :=
  let w := s.offsets.getD env_idx (0, 0)
  if w.2 - w.1 ≤ remove_idx then
    .error (.agentIndexOutOfBounds remove_idx)
  else
    let last_idx := w.2 - 1
    let s' :=
      if remove_idx ≠ last_idx then
        { s with
          name := listSwap s.name (w.1 + remove_idx) last_idx
          y := listSwap s.y (w.1 + remove_idx) last_idx
          x := listSwap s.x (w.1 + remove_idx) last_idx
          power := listSwap s.power (w.1 + remove_idx) last_idx
          suppressant := listSwap s.suppressant (w.1 + remove_idx) last_idx
          capacity := listSwap s.capacity (w.1 + remove_idx) last_idx
          equipment := listSwap s.equipment (w.1 + remove_idx) last_idx }
      else s
    .ok { s' with offsets := s'.offsets.set env_idx (w.1, w.2 - 1) }

/-- `AgentState::add_agents`. -/
def AgentState.add_agents (s : AgentState) (env_idx : Nat) (agents : List AgentRec) :
    Except WildfireError AgentState :=
  List.foldlM (fun acc a => AgentState.add_agent acc env_idx a) s agents

/-- The live agent records of one environment (`AgentState::index_view`). -/
def AgentState.agent_view (s : AgentState) (env_idx : Nat) : List AgentRec :=
  let w := s.offsets.getD env_idx (0, 0)
  ((((slice s.name w.1 w.2).zip (slice s.y w.1 w.2)).zip
        ((slice s.x w.1 w.2).zip (slice s.power w.1 w.2))).zip
      (((slice s.suppressant w.1 w.2).zip (slice s.capacity w.1 w.2)).zip
        (slice s.equipment w.1 w.2))).map
    fun p => (p.1.1.1, p.1.1.2, p.1.2.1, p.1.2.2, p.2.1.1, p.2.1.2, p.2.2)

/-! Characterization lemmas for the seeded sampler. -/

theorem sampleNth_eq (g : Rng) (l : List Space) (idx seed : Nat) :
    sampleNth g l idx seed = (l.get? idx).bind fun s => sample_with_seed g s seed := by
  induction l generalizing idx with
  | nil => cases idx <;> simp [sampleNth]
  | cons s rest ih => cases idx <;> simp [sampleNth, ih]

theorem sampleChildren_some (g : Rng) (l : List Space) (seed i : Nat) (out : List Sample)
    (h : sampleChildren g l seed i = some out) :
    out.length = l.length ∧
      ∀ j, j < l.length →
        ∃ s smp, l.get? j = some s ∧ sample_with_seed g s (seed + (i + j)) = some smp ∧
          out.get? j = some smp := by
  induction l generalizing i out with
  | nil =>
    simp [sampleChildren] at h
    subst h
    simp
  | cons s rest ih =>
    simp only [sampleChildren, Option.bind_eq_bind, Option.bind_eq_some] at h
    obtain ⟨smp, hsmp, tl, htl, hout⟩ := h
    obtain ⟨hlen, hspec⟩ := ih (i + 1) tl htl
    cases hout
    refine ⟨by simp [hlen], ?_⟩
    intro j hj
    cases j with
    | zero => exact ⟨s, smp, by simp, by simpa using hsmp, by simp⟩
    | succ j =>
      obtain ⟨s', smp', h1, h2, h3⟩ := hspec j (by simpa using hj)
      exact ⟨s', smp', by simpa using h1, by convert h2 using 3; omega, by simpa using h3⟩

theorem sampleEntries_some (g : Rng) (kvs : List (String × Space)) (seed i : Nat)
    (out : List (String × Sample)) (h : sampleEntries g kvs seed i = some out) :
    out.length = kvs.length ∧
      ∀ j, j < kvs.length →
        ∃ k s smp, kvs.get? j = some (k, s) ∧
          sample_with_seed g s (seed + (i + j)) = some smp ∧ out.get? j = some (k, smp) := by
  induction kvs generalizing i out with
  | nil =>
    simp [sampleEntries] at h
    subst h
    simp
  | cons p rest ih =>
    obtain ⟨k, s⟩ := p
    simp only [sampleEntries, Option.bind_eq_bind, Option.bind_eq_some] at h
    obtain ⟨smp, hsmp, tl, htl, hout⟩ := h
    obtain ⟨hlen, hspec⟩ := ih (i + 1) tl htl
    cases hout
    refine ⟨by simp [hlen], ?_⟩
    intro j hj
    cases j with
    | zero => exact ⟨k, s, smp, by simp, by simpa using hsmp, by simp⟩
    | succ j =>
      obtain ⟨k', s', smp', h1, h2, h3⟩ := hspec j (by simpa using hj)
      exact ⟨k', s', smp', by simpa using h1, by convert h2 using 3; omega, by simpa using h3⟩

theorem sampleChildrenE_some (e : Entropy) (l : List Space) (path : List Nat) (i : Nat)
    (out : List Sample) (h : sampleChildrenE e l path i = some out) :
    out.length = l.length ∧
      ∀ j, j < l.length →
        ∃ s smp, l.get? j = some s ∧ sample e s (path ++ [i + j]) = some smp ∧
          out.get? j = some smp := by
  induction l generalizing i out with
  | nil =>
    simp [sampleChildrenE] at h
    subst h
    simp
  | cons s rest ih =>
    simp only [sampleChildrenE, Option.bind_eq_bind, Option.bind_eq_some] at h
    obtain ⟨smp, hsmp, tl, htl, hout⟩ := h
    obtain ⟨hlen, hspec⟩ := ih (i + 1) tl htl
    cases hout
    refine ⟨by simp [hlen], ?_⟩
    intro j hj
    cases j with
    | zero => exact ⟨s, smp, by simp, by simpa using hsmp, by simp⟩
    | succ j =>
      obtain ⟨s', smp', h1, h2, h3⟩ := hspec j (by simpa using hj)
      refine ⟨s', smp', by simpa using h1, ?_, by simpa using h3⟩
      convert h2 using 4
      omega

/-! Length lemmas for the enumerators. -/

theorem list_sum_const {α : Type} (l : List α) (c : Nat) :
    (l.map fun _ => c).sum = l.length * c := by
  induction l with
  | nil => simp
  | cons a rest ih => simp [ih, Nat.succ_mul, Nat.add_comm]

theorem enumProd_length (l : List Space) :
    (enumProd l).length = (l.map fun s => (Space.enumerate s).length).prod := by
  induction l with
  | nil => simp [enumProd]
  | cons s rest ih =>
    simp only [enumProd, List.length_flatMap, List.map_map]
    simp only [Function.comp_def, List.length_map, ih]
    rw [list_sum_const]
    simp [List.prod_cons]

theorem enumEntriesProd_length (kvs : List (String × Space)) :
    (enumEntriesProd kvs).length = (kvs.map fun p => (Space.enumerate p.2).length).prod := by
  induction kvs with
  | nil => simp [enumEntriesProd]
  | cons p rest ih =>
    obtain ⟨k, s⟩ := p
    simp only [enumEntriesProd, List.length_flatMap, List.map_map]
    simp only [Function.comp_def, List.length_map, ih]
    rw [list_sum_const]
    simp [List.prod_cons]

theorem enumTagged_length (l : List Space) (i : Nat) :
    (enumTagged l i).length = (l.map fun s => (Space.enumerate s).length).sum := by
  induction l generalizing i with
  | nil => simp [enumTagged]
  | cons s rest ih => simp [enumTagged, ih]

/-! Claim C1. -/

/-- C1 counterexample: the claim says `Vector` enumeration is one enumeration
per slot (a list of lists, outer length = number of slots).  In the source,
`VectorSpace::enumerate` is the same `enumerate_rec` cartesian product as
`TupleSpace::enumerate`: on the two-slot space `Vector[Discrete(2,1),
Discrete(2,10)]` it returns 2·2 = 4 `VectorSample`s, not 2 per-slot lists
(the source's own `test_vector_enumerate` expects 4 elements). -/
theorem C1_counterexample :
    (Space.enumerate (.vector [.discrete 2 1, .discrete 2 10])).length = 4 ∧
      [Space.discrete 2 1, Space.discrete 2 10].length = 2 ∧ (4 : Nat) ≠ 2 :=
  ⟨rfl, rfl, by decide⟩

/-- C1 (amended): `VectorSpace::enumerate` is the flat cartesian product
across slots (cardinality the product of the slot enumeration sizes, each
element one `VectorSample`), while `sample`/`sample_with_seed` do produce
exactly one sample per slot — slot `j` sampled from sub-space `j`
(`sample_with_seed` reseeding slot `j` with `seed + j`). -/
theorem C1_vector_semantics (g : Rng) (e : Entropy) :
    (∀ spaces : List Space,
        (Space.enumerate (.vector spaces)).length =
          (spaces.map fun s => (Space.enumerate s).length).prod) ∧
    (∀ (spaces : List Space) (seed : Nat) (out : Sample),
        sample_with_seed g (.vector spaces) seed = some out →
        ∃ lst, out = .vector lst ∧ lst.length = spaces.length ∧
          ∀ j, j < spaces.length →
            ∃ s smp, spaces.get? j = some s ∧
              sample_with_seed g s (seed + j) = some smp ∧ lst.get? j = some smp) ∧
    (∀ (spaces : List Space) (path : List Nat) (out : Sample),
        sample e (.vector spaces) path = some out →
        ∃ lst, out = .vector lst ∧ lst.length = spaces.length ∧
          ∀ j, j < spaces.length →
            ∃ s smp, spaces.get? j = some s ∧
              sample e s (path ++ [j]) = some smp ∧ lst.get? j = some smp) := by
  refine ⟨?_, ?_, ?_⟩
  · intro spaces
    simp only [Space.enumerate, List.length_map]
    exact enumProd_length spaces
  · intro spaces seed out h
    cases hsc : sampleChildren g spaces seed 0 with
    | none => simp [sample_with_seed, hsc] at h
    | some lst =>
      simp only [sample_with_seed, hsc] at h
      obtain ⟨hlen, hspec⟩ := sampleChildren_some g spaces seed 0 lst hsc
      refine ⟨lst, ?_, hlen, ?_⟩
      · cases h
        rfl
      · intro j hj
        obtain ⟨s, smp, h1, h2, h3⟩ := hspec j hj
        exact ⟨s, smp, h1, by simpa using h2, h3⟩
  · intro spaces path out h
    cases hsc : sampleChildrenE e spaces path 0 with
    | none => simp [sample, hsc] at h
    | some lst =>
      simp only [sample, hsc] at h
      obtain ⟨hlen, hspec⟩ := sampleChildrenE_some e spaces path 0 lst hsc
      refine ⟨lst, ?_, hlen, ?_⟩
      · cases h
        rfl
      · intro j hj
        obtain ⟨s, smp, h1, h2, h3⟩ := hspec j hj
        exact ⟨s, smp, h1, by simpa using h2, h3⟩

/-- C1 witness: the amended theorem applied at the two-slot vector space. -/
theorem C1_witness :
    ∃ lst, (Sample.vector [.discrete 1, .discrete 11] : Sample) = .vector lst ∧
      lst.length = [Space.discrete 2 1, Space.discrete 2 10].length ∧
      ∀ j, j < [Space.discrete 2 1, Space.discrete 2 10].length →
        ∃ s smp, [Space.discrete 2 1, Space.discrete 2 10].get? j = some s ∧
          sample_with_seed gTest s (0 + j) = some smp ∧ lst.get? j = some smp :=
  (C1_vector_semantics gTest eTest).2.1 [.discrete 2 1, .discrete 2 10] 0
    (.vector [.discrete 1, .discrete 11]) (by rfl)

/-! Claim C2. -/

/-- The discrete payload of a sample, used to observe sampler outputs. -/
def discreteVal : Sample → Option Int
  | .discrete v => some v
  | _ => none

/-- The discrete payload stored under `key` in a dict sample. -/
def dictEntryVal (o : Option Sample) (key : String) : Option Int :=
  match o with
  | some (.dict l) =>
      match l.find? fun p => p.1 == key with
      | some p => discreteVal p.2
      | none => none
  | _ => none

/-- C2 counterexample: the claim says Dict children are seeded `seed + i` in
a stabilized (lexicographic) iteration order, independent of storage order.
In the source, `DictSpace::sample_with_seed` enumerates
`self.spaces.iter()` — the `HashMap`'s own iteration order.  Two dict spaces
with identical key-to-space mappings but reversed iteration orders give the
key "a" different seeds (`seed + 0` vs `seed + 1`) and hence different
samples under the same rng algorithm. -/
theorem C2_counterexample :
    [("b", Space.discrete 10 100), ("a", Space.discrete 10 0)] =
        ([("a", Space.discrete 10 0), ("b", Space.discrete 10 100)]).reverse ∧
      dictEntryVal
          (sample_with_seed gTest
            (.dict [("a", .discrete 10 0), ("b", .discrete 10 100)]) 0) "a" = some 0 ∧
      dictEntryVal
          (sample_with_seed gTest
            (.dict [("b", .discrete 10 100), ("a", .discrete 10 0)]) 0) "a" = some 1 ∧
      (some (0 : Int) : Option Int) ≠ some 1 :=
  ⟨rfl, rfl, rfl, by decide⟩

/-- C2 (amended): `sample_with_seed` is a pure function of the space value
(including its iteration order) and the seed, hence identical on repeated
calls; `TupleSpace` seeds child `i` with `seed + i` in list order;
`DictSpace` seeds entry `i` with `seed + i` in the map's own iteration
order — storage-dependent, not lexicographic; `OneOf` reseeds its chosen
child with `seed + 1`. -/
theorem C2_seeding_scheme (g : Rng) :
    (∀ (spaces : List Space) (seed : Nat) (out : Sample),
        sample_with_seed g (.oneOf spaces) seed = some out →
        ∃ idx smp s, out = .oneOf idx smp ∧ spaces.get? idx = some s ∧
          sample_with_seed g s (seed + 1) = some smp) ∧
    (∀ (spaces : List Space) (seed : Nat) (out : Sample),
        sample_with_seed g (.tuple spaces) seed = some out →
        ∃ lst, out = .tuple lst ∧ lst.length = spaces.length ∧
          ∀ j, j < spaces.length →
            ∃ s smp, spaces.get? j = some s ∧
              sample_with_seed g s (seed + j) = some smp ∧ lst.get? j = some smp) ∧
    (∀ (kvs : List (String × Space)) (seed : Nat) (out : Sample),
        sample_with_seed g (.dict kvs) seed = some out →
        ∃ lst, out = .dict lst ∧ lst.length = kvs.length ∧
          ∀ j, j < kvs.length →
            ∃ k s smp, kvs.get? j = some (k, s) ∧
              sample_with_seed g s (seed + j) = some smp ∧
              lst.get? j = some (k, smp)) := by
  refine ⟨?_, ?_, ?_⟩
  · intro spaces seed out h
    by_cases hlen : spaces.length = 0
    · simp [sample_with_seed, hlen] at h
    · cases hsn : sampleNth g spaces (g seed 0 0 spaces.length).toNat (seed + 1) with
      | none => simp [sample_with_seed, hlen, hsn] at h
      | some smp =>
        simp only [sample_with_seed, hlen, if_false, hsn] at h
        rw [sampleNth_eq] at hsn
        obtain ⟨s, hs, hsample⟩ := Option.bind_eq_some.mp hsn
        refine ⟨(g seed 0 0 spaces.length).toNat, smp, s, ?_, hs, hsample⟩
        cases h
        rfl
  · intro spaces seed out h
    cases hsc : sampleChildren g spaces seed 0 with
    | none => simp [sample_with_seed, hsc] at h
    | some lst =>
      simp only [sample_with_seed, hsc] at h
      obtain ⟨hlen, hspec⟩ := sampleChildren_some g spaces seed 0 lst hsc
      refine ⟨lst, ?_, hlen, ?_⟩
      · cases h
        rfl
      · intro j hj
        obtain ⟨s, smp, h1, h2, h3⟩ := hspec j hj
        exact ⟨s, smp, h1, by simpa using h2, h3⟩
  · intro kvs seed out h
    cases hsc : sampleEntries g kvs seed 0 with
    | none => simp [sample_with_seed, hsc] at h
    | some lst =>
      simp only [sample_with_seed, hsc] at h
      obtain ⟨hlen, hspec⟩ := sampleEntries_some g kvs seed 0 lst hsc
      refine ⟨lst, ?_, hlen, ?_⟩
      · cases h
        rfl
      · intro j hj
        obtain ⟨k, s, smp, h1, h2, h3⟩ := hspec j hj
        exact ⟨k, s, smp, h1, by simpa using h2, h3⟩

/-- C2 witness: the `OneOf` reseeding conjunct applied at a concrete space,
seed and output. -/
theorem C2_witness :
    ∃ idx smp s, (Sample.oneOf 0 (.discrete 5) : Sample) = .oneOf idx smp ∧
      [Space.discrete 2 5].get? idx = some s ∧
      sample_with_seed gTest s (3 + 1) = some smp :=
  (C2_seeding_scheme gTest).1 [.discrete 2 5] 3 (.oneOf 0 (.discrete 5)) (by rfl)

/-! Claim C3: totality lemmas for the samplers. -/

theorem wfList_mem :
    ∀ {l : List Space}, wfList l = true → ∀ {s : Space}, s ∈ l → Space.wf s = true := by
  intro l
  induction l with
  | nil => intro _ s hs; cases hs
  | cons a rest ih =>
    intro h s hs
    simp only [wfList, Bool.and_eq_true] at h
    cases hs with
    | head => exact h.1
    | tail _ htail => exact ih h.2 htail

theorem wfEntries_mem :
    ∀ {l : List (String × Space)}, wfEntries l = true →
      ∀ {p : String × Space}, p ∈ l → Space.wf p.2 = true := by
  intro l
  induction l with
  | nil => intro _ p hp; cases hp
  | cons a rest ih =>
    intro h p hp
    obtain ⟨k, s⟩ := a
    simp only [wfEntries, Bool.and_eq_true] at h
    cases hp with
    | head => exact h.1
    | tail _ htail => exact ih h.2 htail

theorem boxDraw_isSome (g : Rng) (seed : Nat) :
    ∀ (bounds : List (Int × Int)) (draw : Nat), (∀ p ∈ bounds, p.1 ≤ p.2) →
      (boxDraw g seed draw bounds).isSome := by
  intro bounds
  induction bounds with
  | nil => intro draw _; simp [boxDraw]
  | cons p rest ih =>
    intro draw h
    obtain ⟨lo, hi⟩ := p
    have hlh : lo ≤ hi := h (lo, hi) (by simp)
    have hrest := ih (draw + 1) fun q hq => h q (by simp [hq])
    cases hbd : boxDraw g seed (draw + 1) rest with
    | none => rw [hbd] at hrest; cases hrest
    | some tl => simp [boxDraw, hbd, show ¬hi < lo by omega]

theorem sampleChildren_isSome (g : Rng) :
    ∀ (l : List Space) (seed i : Nat),
      (∀ s ∈ l, ∀ k, Space.wf s = true → (sample_with_seed g s k).isSome) →
      wfList l = true → (sampleChildren g l seed i).isSome := by
  intro l
  induction l with
  | nil => intro seed i _ _; simp [sampleChildren]
  | cons s rest ih =>
    intro seed i IH hwf
    simp only [wfList, Bool.and_eq_true] at hwf
    have h1 := IH s (by simp) (seed + i) hwf.1
    cases hs1 : sample_with_seed g s (seed + i) with
    | none => rw [hs1] at h1; cases h1
    | some smp =>
      have h2 := ih seed (i + 1) (fun s' hm k hw => IH s' (by simp [hm]) k hw) hwf.2
      cases hs2 : sampleChildren g rest seed (i + 1) with
      | none => rw [hs2] at h2; cases h2
      | some tl => simp [sampleChildren, hs1, hs2]

theorem sampleEntries_isSome (g : Rng) :
    ∀ (l : List (String × Space)) (seed i : Nat),
      (∀ p ∈ l, ∀ k, Space.wf p.2 = true → (sample_with_seed g p.2 k).isSome) →
      wfEntries l = true → (sampleEntries g l seed i).isSome := by
  intro l
  induction l with
  | nil => intro seed i _ _; simp [sampleEntries]
  | cons p rest ih =>
    intro seed i IH hwf
    obtain ⟨k, s⟩ := p
    simp only [wfEntries, Bool.and_eq_true] at hwf
    have h1 := IH (k, s) (by simp) (seed + i) hwf.1
    cases hs1 : sample_with_seed g s (seed + i) with
    | none => rw [hs1] at h1; cases h1
    | some smp =>
      have h2 := ih seed (i + 1) (fun p' hm k' hw => IH p' (by simp [hm]) k' hw) hwf.2
      cases hs2 : sampleEntries g rest seed (i + 1) with
      | none => rw [hs2] at h2; cases h2
      | some tl => simp [sampleEntries, hs1, hs2]

theorem sampleNth_isSome (g : Rng) (l : List Space) (idx seed : Nat)
    (IH : ∀ s ∈ l, ∀ k, Space.wf s = true → (sample_with_seed g s k).isSome)
    (hidx : idx < l.length) (hwf : wfList l = true) :
    (sampleNth g l idx seed).isSome := by
  rw [sampleNth_eq]
  cases hget : l.get? idx with
  | none =>
    rw [List.get?_eq_none] at hget
    omega
  | some s =>
    have hmem : s ∈ l := List.get?_mem hget
    simpa using IH s hmem seed (wfList_mem hwf hmem)

theorem wf_sample_with_seed_isSome (g : Rng) (hg : RngOk g) :
    ∀ (s : Space) (seed : Nat), Space.wf s = true → (sample_with_seed g s seed).isSome := by
  suffices H : ∀ (N : Nat) (s : Space), sizeOf s ≤ N → ∀ seed : Nat,
      Space.wf s = true → (sample_with_seed g s seed).isSome by
    intro s seed hwf
    exact H (sizeOf s) s le_rfl seed hwf
  intro N
  induction N with
  | zero =>
    intro s hs
    cases s <;> simp_arith at hs
  | succ N IHN =>
    intro s hs seed hwf
    have child_ih : ∀ l : List Space, sizeOf l ≤ N →
        ∀ s' ∈ l, ∀ k, Space.wf s' = true → (sample_with_seed g s' k).isSome := by
      intro l hl s' hmem k hw
      have := List.sizeOf_lt_of_mem hmem
      exact IHN s' (by omega) k hw
    cases s with
    | discrete n start =>
      simp only [Space.wf, decide_eq_true_eq] at hwf
      simp [sample_with_seed, show ¬n ≤ 0 by omega]
    | oneOf spaces =>
      simp only [Space.wf, Bool.and_eq_true, Bool.not_eq_true'] at hwf
      obtain ⟨hne, hlw⟩ := hwf
      have hlen : 0 < spaces.length := by
        cases spaces with
        | nil => simp at hne
        | cons a r => simp
      have hsz : sizeOf spaces ≤ N := by
        have : sizeOf (Space.oneOf spaces) = 1 + sizeOf spaces := by simp
        omega
      have hidx : (g seed 0 0 spaces.length).toNat < spaces.length := by
        have := hg seed 0 0 spaces.length (by exact_mod_cast hlen)
        omega
      have hns := sampleNth_isSome g spaces (g seed 0 0 spaces.length).toNat (seed + 1)
        (child_ih spaces hsz) hidx hlw
      cases hn : sampleNth g spaces (g seed 0 0 spaces.length).toNat (seed + 1) with
      | none => rw [hn] at hns; cases hns
      | some smp => simp [sample_with_seed, show spaces.length ≠ 0 by omega, hn]
    | box low high =>
      simp only [Space.wf, List.all_eq_true, decide_eq_true_eq] at hwf
      have hbd := boxDraw_isSome g seed (low.zip high) 0 hwf
      cases hb : boxDraw g seed 0 (low.zip high) with
      | none => rw [hb] at hbd; cases hbd
      | some v => simp [sample_with_seed, hb]
    | tuple spaces =>
      simp only [Space.wf] at hwf
      have hsz : sizeOf spaces ≤ N := by
        have : sizeOf (Space.tuple spaces) = 1 + sizeOf spaces := by simp
        omega
      have hsc := sampleChildren_isSome g spaces seed 0 (child_ih spaces hsz) hwf
      cases hc : sampleChildren g spaces seed 0 with
      | none => rw [hc] at hsc; cases hsc
      | some lst => simp [sample_with_seed, hc]
    | dict kvs =>
      simp only [Space.wf] at hwf
      have hsz : sizeOf kvs ≤ N := by
        have : sizeOf (Space.dict kvs) = 1 + sizeOf kvs := by simp
        omega
      have entry_ih : ∀ p ∈ kvs, ∀ k, Space.wf p.2 = true →
          (sample_with_seed g p.2 k).isSome := by
        intro p hmem k hw
        have h1 := List.sizeOf_lt_of_mem hmem
        have h2 : sizeOf p.2 < sizeOf p := by
          obtain ⟨a, b⟩ := p
          simp_arith
        exact IHN p.2 (by omega) k hw
      have hse := sampleEntries_isSome g kvs seed 0 entry_ih hwf
      cases hc : sampleEntries g kvs seed 0 with
      | none => rw [hc] at hse; cases hse
      | some lst => simp [sample_with_seed, hc]
    | vector spaces =>
      simp only [Space.wf] at hwf
      have hsz : sizeOf spaces ≤ N := by
        have : sizeOf (Space.vector spaces) = 1 + sizeOf spaces := by simp
        omega
      have hsc := sampleChildren_isSome g spaces seed 0 (child_ih spaces hsz) hwf
      cases hc : sampleChildren g spaces seed 0 with
      | none => rw [hc] at hsc; cases hsc
      | some lst => simp [sample_with_seed, hc]

theorem sampleNthE_eq (e : Entropy) (l : List Space) (idx : Nat) (path : List Nat) :
    sampleNthE e l idx path = (l.get? idx).bind fun s => sample e s path := by
  induction l generalizing idx with
  | nil => cases idx <;> simp [sampleNthE]
  | cons s rest ih => cases idx <;> simp [sampleNthE, ih]

theorem boxDrawE_isSome (e : Entropy) (path : List Nat) :
    ∀ (bounds : List (Int × Int)) (draw : Nat), (∀ p ∈ bounds, p.1 ≤ p.2) →
      (boxDrawE e path draw bounds).isSome := by
  intro bounds
  induction bounds with
  | nil => intro draw _; simp [boxDrawE]
  | cons p rest ih =>
    intro draw h
    obtain ⟨lo, hi⟩ := p
    have hlh : lo ≤ hi := h (lo, hi) (by simp)
    have hrest := ih (draw + 1) fun q hq => h q (by simp [hq])
    cases hbd : boxDrawE e path (draw + 1) rest with
    | none => rw [hbd] at hrest; cases hrest
    | some tl => simp [boxDrawE, hbd, show ¬hi < lo by omega]

theorem sampleChildrenE_isSome (e : Entropy) :
    ∀ (l : List Space) (path : List Nat) (i : Nat),
      (∀ s ∈ l, ∀ q : List Nat, Space.wf s = true → (sample e s q).isSome) →
      wfList l = true → (sampleChildrenE e l path i).isSome := by
  intro l
  induction l with
  | nil => intro path i _ _; simp [sampleChildrenE]
  | cons s rest ih =>
    intro path i IH hwf
    simp only [wfList, Bool.and_eq_true] at hwf
    have h1 := IH s (by simp) (path ++ [i]) hwf.1
    cases hs1 : sample e s (path ++ [i]) with
    | none => rw [hs1] at h1; cases h1
    | some smp =>
      have h2 := ih path (i + 1) (fun s' hm q hw => IH s' (by simp [hm]) q hw) hwf.2
      cases hs2 : sampleChildrenE e rest path (i + 1) with
      | none => rw [hs2] at h2; cases h2
      | some tl => simp [sampleChildrenE, hs1, hs2]

theorem sampleEntriesE_isSome (e : Entropy) :
    ∀ (l : List (String × Space)) (path : List Nat) (i : Nat),
      (∀ p ∈ l, ∀ q : List Nat, Space.wf p.2 = true → (sample e p.2 q).isSome) →
      wfEntries l = true → (sampleEntriesE e l path i).isSome := by
  intro l
  induction l with
  | nil => intro path i _ _; simp [sampleEntriesE]
  | cons p rest ih =>
    intro path i IH hwf
    obtain ⟨k, s⟩ := p
    simp only [wfEntries, Bool.and_eq_true] at hwf
    have h1 := IH (k, s) (by simp) (path ++ [i]) hwf.1
    cases hs1 : sample e s (path ++ [i]) with
    | none => rw [hs1] at h1; cases h1
    | some smp =>
      have h2 := ih path (i + 1) (fun p' hm q hw => IH p' (by simp [hm]) q hw) hwf.2
      cases hs2 : sampleEntriesE e rest path (i + 1) with
      | none => rw [hs2] at h2; cases h2
      | some tl => simp [sampleEntriesE, hs1, hs2]

theorem sampleNthE_isSome (e : Entropy) (l : List Space) (idx : Nat) (path : List Nat)
    (IH : ∀ s ∈ l, ∀ q : List Nat, Space.wf s = true → (sample e s q).isSome)
    (hidx : idx < l.length) (hwf : wfList l = true) :
    (sampleNthE e l idx path).isSome := by
  rw [sampleNthE_eq]
  cases hget : l.get? idx with
  | none =>
    rw [List.get?_eq_none] at hget
    omega
  | some s =>
    have hmem : s ∈ l := List.get?_mem hget
    simpa using IH s hmem path (wfList_mem hwf hmem)

theorem wf_sample_isSome (e : Entropy) (he : EntropyOk e) :
    ∀ (s : Space) (path : List Nat), Space.wf s = true → (sample e s path).isSome := by
  suffices H : ∀ (N : Nat) (s : Space), sizeOf s ≤ N → ∀ path : List Nat,
      Space.wf s = true → (sample e s path).isSome by
    intro s path hwf
    exact H (sizeOf s) s le_rfl path hwf
  intro N
  induction N with
  | zero =>
    intro s hs
    cases s <;> simp_arith at hs
  | succ N IHN =>
    intro s hs path hwf
    have child_ih : ∀ l : List Space, sizeOf l ≤ N →
        ∀ s' ∈ l, ∀ q : List Nat, Space.wf s' = true → (sample e s' q).isSome := by
      intro l hl s' hmem q hw
      have := List.sizeOf_lt_of_mem hmem
      exact IHN s' (by omega) q hw
    cases s with
    | discrete n start =>
      simp only [Space.wf, decide_eq_true_eq] at hwf
      simp [sample, show ¬n ≤ 0 by omega]
    | oneOf spaces =>
      simp only [Space.wf, Bool.and_eq_true, Bool.not_eq_true'] at hwf
      obtain ⟨hne, hlw⟩ := hwf
      have hlen : 0 < spaces.length := by
        cases spaces with
        | nil => simp at hne
        | cons a r => simp
      have hsz : sizeOf spaces ≤ N := by
        have : sizeOf (Space.oneOf spaces) = 1 + sizeOf spaces := by simp
        omega
      have hidx : (e path 0 0 spaces.length).toNat < spaces.length := by
        have := he path 0 0 spaces.length (by exact_mod_cast hlen)
        omega
      have hns := sampleNthE_isSome e spaces (e path 0 0 spaces.length).toNat
        (path ++ [(e path 0 0 spaces.length).toNat]) (child_ih spaces hsz) hidx hlw
      cases hn : sampleNthE e spaces (e path 0 0 spaces.length).toNat
          (path ++ [(e path 0 0 spaces.length).toNat]) with
      | none => rw [hn] at hns; cases hns
      | some smp => simp [sample, show spaces.length ≠ 0 by omega, hn]
    | box low high =>
      simp only [Space.wf, List.all_eq_true, decide_eq_true_eq] at hwf
      have hbd := boxDrawE_isSome e path (low.zip high) 0 hwf
      cases hb : boxDrawE e path 0 (low.zip high) with
      | none => rw [hb] at hbd; cases hbd
      | some v => simp [sample, hb]
    | tuple spaces =>
      simp only [Space.wf] at hwf
      have hsz : sizeOf spaces ≤ N := by
        have : sizeOf (Space.tuple spaces) = 1 + sizeOf spaces := by simp
        omega
      have hsc := sampleChildrenE_isSome e spaces path 0 (child_ih spaces hsz) hwf
      cases hc : sampleChildrenE e spaces path 0 with
      | none => rw [hc] at hsc; cases hsc
      | some lst => simp [sample, hc]
    | dict kvs =>
      simp only [Space.wf] at hwf
      have hsz : sizeOf kvs ≤ N := by
        have : sizeOf (Space.dict kvs) = 1 + sizeOf kvs := by simp
        omega
      have entry_ih : ∀ p ∈ kvs, ∀ q : List Nat, Space.wf p.2 = true →
          (sample e p.2 q).isSome := by
        intro p hmem q hw
        have h1 := List.sizeOf_lt_of_mem hmem
        have h2 : sizeOf p.2 < sizeOf p := by
          obtain ⟨a, b⟩ := p
          simp_arith
        exact IHN p.2 (by omega) q hw
      have hse := sampleEntriesE_isSome e kvs path 0 entry_ih hwf
      cases hc : sampleEntriesE e kvs path 0 with
      | none => rw [hc] at hse; cases hse
      | some lst => simp [sample, hc]
    | vector spaces =>
      simp only [Space.wf] at hwf
      have hsz : sizeOf spaces ≤ N := by
        have : sizeOf (Space.vector spaces) = 1 + sizeOf spaces := by simp
        omega
      have hsc := sampleChildrenE_isSome e spaces path 0 (child_ih spaces hsz) hwf
      cases hc : sampleChildrenE e spaces path 0 with
      | none => rw [hc] at hsc; cases hsc
      | some lst => simp [sample, hc]

/-- C3 counterexample: the claim says sampling never panics and returns the
empty outcome `None` on an empty space, and that `OneOf` never selects an
ineligible sub-space.  In the source the `Space` trait's samplers return
`Arc<dyn Sample>` — there is no `None` to return — and `Discrete{n:0}`
panics inside `gen_range(start..start)` (modelled `none`).  Moreover
`OneOf::sample_with_seed` draws its index over *all* children with no
eligibility filter: with the rng algorithm `gTest` and seed 0 it selects
child 0, the empty `Discrete`, and panics even though an eligible child
exists at index 1. -/
theorem C3_counterexample :
    sample_with_seed gTest (.discrete 0 7) 42 = none ∧
      sample_with_seed gTest (.oneOf [.discrete 0 0, .discrete 1 5]) 0 = none :=
  ⟨rfl, rfl⟩

/-- C3 (amended): sampling never panics and returns a `Sample` whenever every
`Discrete` sub-space has `n > 0`, every `OneOf` child list is nonempty, and
every zipped `Box` bound pair satisfies `low ≤ high` (`Space.wf`); on an
empty `Discrete` or an empty `OneOf` list the source panics in `gen_range`
rather than returning an empty outcome, and `OneOf` picks uniformly among
*all* children (no eligibility filter), panicking if the chosen child is an
empty `Discrete`.  `Box` never panics on empty or mismatched bound lists —
`zip` silently truncates to the shorter list. -/
theorem C3_sampling_totality (g : Rng) (e : Entropy) (s : Space) (seed : Nat)
    (path : List Nat) (hg : RngOk g) (he : EntropyOk e) (hwf : Space.wf s = true) :
    (sample_with_seed g s seed).isSome = true ∧ (sample e s path).isSome = true :=
  ⟨wf_sample_with_seed_isSome g hg s seed hwf, wf_sample_isSome e he s path hwf⟩

/-- C3 witness: the amended totality theorem at a concrete composite space,
rng algorithm and entropy outcome. -/
theorem C3_witness :
    (sample_with_seed gTest
        (.oneOf [.discrete 2 5, .tuple [.box [0, 0] [1, 2], .discrete 3 10]]) 7).isSome = true ∧
      (sample eTest
        (.oneOf [.discrete 2 5, .tuple [.box [0, 0] [1, 2], .discrete 3 10]]) []).isSome = true :=
  C3_sampling_totality gTest eTest
    (.oneOf [.discrete 2 5, .tuple [.box [0, 0] [1, 2], .discrete 3 10]]) 7 []
    gTest_ok eTest_ok (by decide)

/-! Claim C7: enumeration cardinality, order and tagging. -/

theorem boxEnum_length (bounds : List (Int × Int)) (h : ∀ p ∈ bounds, p.1 ≤ p.2 + 1) :
    ((boxEnum bounds).length : Int) = (bounds.map fun p => p.2 + 1 - p.1).prod := by
  induction bounds with
  | nil => simp [boxEnum]
  | cons p rest ih =>
    obtain ⟨lo, hi⟩ := p
    have hp : lo ≤ hi + 1 := h (lo, hi) (by simp)
    have hrest := ih fun q hq => h q (by simp [hq])
    simp only [boxEnum, List.length_flatMap, List.map_map, Function.comp_def,
      List.length_map]
    rw [list_sum_const, List.length_range, List.map_cons, List.prod_cons, ← hrest]
    have : ((hi + 1 - lo).toNat : Int) = hi + 1 - lo := by omega
    push_cast
    rw [this]

theorem boxEnum_nodup (bounds : List (Int × Int)) : (boxEnum bounds).Nodup := by
  induction bounds with
  | nil => simp [boxEnum]
  | cons p rest ih =>
    obtain ⟨lo, hi⟩ := p
    simp only [boxEnum]
    rw [List.nodup_flatMap]
    constructor
    · intro v _
      exact ih.map fun a b hab => by simpa using hab
    · rw [List.pairwise_map]
      refine List.Pairwise.imp ?_ (List.pairwise_lt_range _)
      intro a b hab xs hxa hxb
      simp only [List.mem_map] at hxa hxb
      obtain ⟨ta, _, hta⟩ := hxa
      obtain ⟨tb, _, htb⟩ := hxb
      rw [← hta] at htb
      have : lo + (b : Int) = lo + (a : Int) := (List.cons.injEq _ _ _ _ ▸ htb).1
      omega

theorem enumTagged_mem (l : List Space) :
    ∀ (i : Nat) (x : Sample), x ∈ enumTagged l i →
      ∃ j s smp, l.get? j = some s ∧ x = .oneOf (i + j) smp ∧ smp ∈ Space.enumerate s := by
  induction l with
  | nil => intro i x hx; simp [enumTagged] at hx
  | cons s rest ih =>
    intro i x hx
    simp only [enumTagged, List.mem_append, List.mem_map] at hx
    rcases hx with ⟨smp, hsmp, rfl⟩ | hx
    · exact ⟨0, s, smp, by simp, by simp, hsmp⟩
    · obtain ⟨j, s', smp, h1, h2, h3⟩ := ih (i + 1) x hx
      refine ⟨j + 1, s', smp, by simpa using h1, ?_, h3⟩
      rw [h2]
      congr 1
      omega

/-- C7: enumeration cardinality, order and tagging, per variant.
`Discrete{n, start}` enumerates to `[start, start+n)` in order (`n`
elements); a `Box` with componentwise `low ≤ high+1` enumerates to
`prod (high[i] - low[i] + 1)` pairwise-distinct elements; `TupleSpace` and
`DictSpace` enumerate to the cartesian product of their children's
enumerations (in child order / the map's key iteration order, the rightmost
child varying fastest — witnessed by the spec's concrete examples below);
`OneOf` enumerates to the concatenation (sum, not product) of its children's
enumerations, each element tagged `OneOfSample(j, ·)` with its source child
index `j`. -/
theorem C7_enumeration :
    (∀ n start : Int, (Space.enumerate (.discrete n start)).length = n.toNat ∧
        ∀ i : Nat, i < n.toNat →
          (Space.enumerate (.discrete n start)).get? i = some (.discrete (start + i))) ∧
    (∀ low high : List Int, low.length = high.length →
        (∀ p ∈ low.zip high, p.1 ≤ p.2 + 1) →
        ((Space.enumerate (.box low high)).length : Int) =
            ((low.zip high).map fun p => p.2 + 1 - p.1).prod ∧
          (Space.enumerate (.box low high)).Nodup) ∧
    (∀ spaces : List Space, (Space.enumerate (.tuple spaces)).length =
        (spaces.map fun s => (Space.enumerate s).length).prod) ∧
    (∀ kvs : List (String × Space), (Space.enumerate (.dict kvs)).length =
        (kvs.map fun p => (Space.enumerate p.2).length).prod) ∧
    (∀ spaces : List Space,
        (Space.enumerate (.oneOf spaces)).length =
            (spaces.map fun s => (Space.enumerate s).length).sum ∧
          ∀ x ∈ Space.enumerate (.oneOf spaces),
            ∃ j s smp, spaces.get? j = some s ∧ x = .oneOf j smp ∧
              smp ∈ Space.enumerate s) ∧
    Space.enumerate (.discrete 5 10) =
        [.discrete 10, .discrete 11, .discrete 12, .discrete 13, .discrete 14] ∧
    Space.enumerate (.tuple [.discrete 2 1, .discrete 2 10]) =
        [.tuple [.discrete 1, .discrete 10], .tuple [.discrete 1, .discrete 11],
          .tuple [.discrete 2, .discrete 10], .tuple [.discrete 2, .discrete 11]] ∧
    Space.enumerate (.dict [("a", .discrete 3 5), ("b", .discrete 2 10)]) =
        [.dict [("a", .discrete 5), ("b", .discrete 10)],
          .dict [("a", .discrete 5), ("b", .discrete 11)],
          .dict [("a", .discrete 6), ("b", .discrete 10)],
          .dict [("a", .discrete 6), ("b", .discrete 11)],
          .dict [("a", .discrete 7), ("b", .discrete 10)],
          .dict [("a", .discrete 7), ("b", .discrete 11)]] ∧
    (Space.enumerate (.oneOf [.discrete 2 5, .discrete 3 10])).length = 2 + 3 := by
  refine ⟨?_, ?_, ?_, ?_, ?_, rfl, rfl, rfl, rfl⟩
  · intro n start
    constructor
    · simp [Space.enumerate]
    · intro i hi
      simp [Space.enumerate, List.get?_eq_getElem?, List.getElem?_map,
        List.getElem?_range hi]
  · intro low high _ hb
    constructor
    · simpa [Space.enumerate] using boxEnum_length (low.zip high) hb
    · exact (boxEnum_nodup (low.zip high)).map fun a b hab => by simpa using hab
  · intro spaces
    simpa [Space.enumerate] using enumProd_length spaces
  · intro kvs
    simpa [Space.enumerate] using enumEntriesProd_length kvs
  · intro spaces
    refine ⟨by simpa [Space.enumerate] using enumTagged_length spaces 0, ?_⟩
    intro x hx
    obtain ⟨j, s, smp, h1, h2, h3⟩ := enumTagged_mem spaces 0 x hx
    exact ⟨j, s, smp, h1, by simpa using h2, h3⟩

/-- C7 witness: the quantified conjuncts applied at the spec's own concrete
examples. -/
theorem C7_witness :
    ((Space.enumerate (.discrete 5 10)).length = (5 : Int).toNat ∧
        (Space.enumerate (.discrete 5 10)).get? 2 = some (.discrete (10 + (2 : Nat)))) ∧
      (((Space.enumerate (.box [0, 0] [1, 2])).length : Int) =
          (([0, 0].zip [1, 2]).map fun p : Int × Int => p.2 + 1 - p.1).prod ∧
        (Space.enumerate (.box [0, 0] [1, 2])).Nodup) :=
  ⟨⟨(C7_enumeration.1 5 10).1, (C7_enumeration.1 5 10).2 2 (by decide)⟩,
    C7_enumeration.2.1 [0, 0] [1, 2] (by decide) (by decide)⟩

/-! Claims C5 and C6: the `add` contract and the offset-window invariants. -/

/-- C5: for a valid environment index, `add_fire`/`add_agent` fail with the
capacity error carrying `attempted = max_per_env + 1` and `max = max_per_env`
exactly when the window is full (`end = start + max_per_env`; the source
check `end >= start + max_per_env` coincides under the window invariant), and
otherwise write the record's fields at index `end` and increment `end`.  The
error return precedes every write in the source, so a failing call leaves
the store unmodified. -/
theorem C5_add_contract (s : EnvState) (a : AgentState) (e : Nat)
    (fire : Nat × Nat × Nat × Nat) (rec : AgentRec)
    (start stop astart astop : Nat)
    (hf : e < s.offsets.length) (ha : e < a.offsets.length)
    (hw : s.offsets.getD e (0, 0) = (start, stop))
    (haw : a.offsets.getD e (0, 0) = (astart, astop)) :
    ((stop = start + s.max_fires →
        EnvState.add_fire s e fire =
          .error (.fireCapacityExceeded (s.max_fires + 1) s.max_fires)) ∧
      (stop < start + s.max_fires →
        EnvState.add_fire s e fire = Except.ok { s with
          y := s.y.set stop fire.1
          x := s.x.set stop fire.2.1
          size := s.size.set stop fire.2.2.1
          intensity := s.intensity.set stop fire.2.2.2
          offsets := s.offsets.set e (start, stop + 1) })) ∧
    ((astop = astart + a.max_agents →
        AgentState.add_agent a e rec =
          .error (.agentCapacityExceeded (a.max_agents + 1) a.max_agents)) ∧
      (astop < astart + a.max_agents →
        AgentState.add_agent a e rec = Except.ok { a with
          name := a.name.set astop rec.1
          y := a.y.set astop rec.2.1
          x := a.x.set astop rec.2.2.1
          power := a.power.set astop rec.2.2.2.1
          suppressant := a.suppressant.set astop rec.2.2.2.2.1
          capacity := a.capacity.set astop rec.2.2.2.2.2.1
          equipment := a.equipment.set astop rec.2.2.2.2.2.2
          offsets := a.offsets.set e (astart, astop + 1) })) := by
  refine ⟨⟨?_, ?_⟩, ⟨?_, ?_⟩⟩
  · intro hfull
    simp only [EnvState.add_fire, hw]
    rw [if_pos (by omega)]
    congr 1
    congr 1
    omega
  · intro hroom
    simp only [EnvState.add_fire, hw]
    rw [if_neg (by omega)]
  · intro hfull
    simp only [AgentState.add_agent, haw]
    rw [if_pos (by omega)]
    congr 1
    congr 1
    omega
  · intro hroom
    simp only [AgentState.add_agent, haw]
    rw [if_neg (by omega)]

/-- A fire store whose single window `(0, 1)` is full (`max_fires = 1`). -/
def fireStoreFull : EnvState :=
  { max_fires := 1, offsets := [(0, 1)], fuel := [0], y := [5], x := [6],
    size := [7], intensity := [8] }

/-- An agent store whose single window `(0, 1)` is full (`max_agents = 1`). -/
def agentStoreFull : AgentState :=
  { max_agents := 1, offsets := [(0, 1)], name := [9], y := [1], x := [2],
    power := [3], suppressant := [4], capacity := [5], equipment := [6] }

/-- C5 witness: the contract applied to full one-slot stores. -/
theorem C5_witness :
    EnvState.add_fire fireStoreFull 0 (1, 2, 3, 4) =
        .error (.fireCapacityExceeded 2 1) ∧
      AgentState.add_agent agentStoreFull 0 (10, 1, 2, 3, 4, 5, 6) =
        .error (.agentCapacityExceeded 2 1) :=
  ⟨(C5_add_contract fireStoreFull agentStoreFull 0 (1, 2, 3, 4) (10, 1, 2, 3, 4, 5, 6)
      0 1 0 1 (by decide) (by decide) rfl rfl).1.1 rfl,
    (C5_add_contract fireStoreFull agentStoreFull 0 (1, 2, 3, 4) (10, 1, 2, 3, 4, 5, 6)
      0 1 0 1 (by decide) (by decide) rfl rfl).2.1 rfl⟩

/-- One structural mutation of the fire store (a failing call leaves the
store unchanged: the source returns its error before any write). -/
inductive FireOp where
  | add (env_idx : Nat) (fire : Nat × Nat × Nat × Nat)
  | remove (env_idx remove_idx : Nat)
  | clear

/-- Apply one fire-store operation, keeping the prior state on error. -/
def applyFireOp (s : EnvState) : FireOp → EnvState
  | .add e f =>
      match s.add_fire e f with
      | .ok s' => s'
      | .error _ => s
  | .remove e i =>
      match s.remove_fire e i with
      | .ok s' => s'
      | .error _ => s
  | .clear => s.clear

/-- Apply a sequence of fire-store operations. -/
def applyFireOps (s : EnvState) (ops : List FireOp) : EnvState :=
  ops.foldl applyFireOp s

/-- One structural mutation of the agent store. -/
inductive AgentOp where
  | add (env_idx : Nat) (rec : AgentRec)
  | remove (env_idx remove_idx : Nat)
  | clear

/-- Apply one agent-store operation, keeping the prior state on error. -/
def applyAgentOp (s : AgentState) : AgentOp → AgentState
  | .add e r =>
      match s.add_agent e r with
      | .ok s' => s'
      | .error _ => s
  | .remove e i =>
      match s.remove_agent e i with
      | .ok s' => s'
      | .error _ => s
  | .clear => s.clear

/-- Apply a sequence of agent-store operations. -/
def applyAgentOps (s : AgentState) (ops : List AgentOp) : AgentState :=
  ops.foldl applyAgentOp s

/-- The per-window invariant of the offset table: window `i` starts at
`i * cap`, is well-ordered, and holds at most `cap` entries. -/
def windowsWF (cap : Nat) (offsets : List (Nat × Nat)) : Prop :=
  ∀ i : Nat, ∀ w : Nat × Nat, offsets[i]? = some w →
    w.1 = i * cap ∧ w.1 ≤ w.2 ∧ w.2 ≤ w.1 + cap

/-- Live ranges of distinct environments never overlap. -/
def windowsDisjoint (offsets : List (Nat × Nat)) : Prop :=
  ∀ i j : Nat, ∀ wi wj : Nat × Nat, i ≠ j →
    offsets[i]? = some wi → offsets[j]? = some wj →
    wi.2 ≤ wj.1 ∨ wj.2 ≤ wi.1

theorem windowsWF_disjoint (cap : Nat) (offsets : List (Nat × Nat))
    (h : windowsWF cap offsets) : windowsDisjoint offsets := by
  intro i j wi wj hij hi hj
  obtain ⟨hi1, hi2, hi3⟩ := h i wi hi
  obtain ⟨hj1, hj2, hj3⟩ := h j wj hj
  rcases Nat.lt_or_ge i j with hlt | hge
  · left
    have key : i * cap + cap ≤ j * cap := by
      calc i * cap + cap = (i + 1) * cap := by ring
        _ ≤ j * cap := Nat.mul_le_mul_right cap (by omega)
    omega
  · right
    have hlt' : j < i := by omega
    have key : j * cap + cap ≤ i * cap := by
      calc j * cap + cap = (j + 1) * cap := by ring
        _ ≤ i * cap := Nat.mul_le_mul_right cap (by omega)
    omega

theorem windowsWF_fresh (cap n : Nat) :
    windowsWF cap ((List.range n).map fun i => (i * cap, i * cap)) := by
  intro i w hi
  rw [List.getElem?_map] at hi
  rcases Nat.lt_or_ge i n with h1 | h1
  · rw [List.getElem?_range h1] at hi
    simp only [Option.map_some'] at hi
    cases hi
    refine ⟨rfl, le_rfl, ?_⟩
    show i * cap ≤ i * cap + cap
    omega
  · rw [List.getElem?_eq_none (by simpa using h1)] at hi
    simp at hi

theorem windowsWF_set_oob (cap : Nat) (offsets : List (Nat × Nat)) (e : Nat)
    (w' : Nat × Nat) (h : windowsWF cap offsets) (he : offsets.length ≤ e) :
    windowsWF cap (offsets.set e w') := by
  rw [List.set_eq_of_length_le he]
  exact h

theorem windowsWF_set (cap : Nat) (offsets : List (Nat × Nat)) (e : Nat) (w' : Nat × Nat)
    (h : windowsWF cap offsets)
    (hw : w'.1 = e * cap ∧ w'.1 ≤ w'.2 ∧ w'.2 ≤ w'.1 + cap) :
    windowsWF cap (offsets.set e w') := by
  intro i w hi
  by_cases hie : i = e
  · subst hie
    by_cases hlen : i < offsets.length
    · rw [List.getElem?_set_eq_of_lt _ hlen] at hi
      cases hi
      exact hw
    · rw [List.set_eq_of_length_le (by omega)] at hi
      exact h i w hi
  · rw [List.getElem?_set_ne (by omega)] at hi
    exact h i w hi

theorem windowsWF_getD (cap : Nat) (offsets : List (Nat × Nat)) (e : Nat)
    (he : e < offsets.length) :
    offsets[e]? = some (offsets.getD e (0, 0)) := by
  rw [List.getD_eq_getElem?_getD]
  cases hg : offsets[e]? with
  | none =>
    rw [List.getElem?_eq_none_iff] at hg
    omega
  | some w => rfl

theorem fireOp_preserves (cap : Nat) (s : EnvState) (op : FireOp)
    (hmax : s.max_fires = cap) (hwf : windowsWF cap s.offsets) :
    (applyFireOp s op).max_fires = cap ∧ windowsWF cap (applyFireOp s op).offsets := by
  cases op with
  | clear =>
    refine ⟨hmax, ?_⟩
    simp only [applyFireOp, EnvState.clear, hmax]
    exact windowsWF_fresh cap s.offsets.length
  | add e f =>
    by_cases he : e < s.offsets.length
    · have hsome := windowsWF_getD cap s.offsets e he
      obtain ⟨h1, h2, h3⟩ := hwf e _ hsome
      by_cases hcap : (s.offsets.getD e (0, 0)).1 + s.max_fires ≤ (s.offsets.getD e (0, 0)).2
      · simp only [applyFireOp, EnvState.add_fire, if_pos hcap]
        exact ⟨hmax, hwf⟩
      · simp only [applyFireOp, EnvState.add_fire, if_neg hcap]
        refine ⟨hmax, windowsWF_set cap s.offsets e _ hwf ?_⟩
        refine ⟨by simpa [hmax] using h1, by omega, ?_⟩
        simp only [hmax] at hcap h3 ⊢
        omega
    · by_cases hcap : (s.offsets.getD e (0, 0)).1 + s.max_fires ≤ (s.offsets.getD e (0, 0)).2
      · simp only [applyFireOp, EnvState.add_fire, if_pos hcap]
        exact ⟨hmax, hwf⟩
      · simp only [applyFireOp, EnvState.add_fire, if_neg hcap]
        exact ⟨hmax, windowsWF_set_oob cap s.offsets e _ hwf (by omega)⟩
  | remove e i =>
    by_cases hoob : (s.offsets.getD e (0, 0)).2 - (s.offsets.getD e (0, 0)).1 ≤ i
    · simp only [applyFireOp, EnvState.remove_fire, if_pos hoob]
      exact ⟨hmax, hwf⟩
    · simp only [applyFireOp, EnvState.remove_fire, if_neg hoob]
      by_cases he : e < s.offsets.length
      · have hsome := windowsWF_getD cap s.offsets e he
        obtain ⟨h1, h2, h3⟩ := hwf e _ hsome
        refine ⟨?_, ?_⟩
        · split
          · exact hmax
          · exact hmax
        · split
          · exact windowsWF_set cap s.offsets e _ hwf ⟨h1, by omega, by omega⟩
          · exact windowsWF_set cap s.offsets e _ hwf ⟨h1, by omega, by omega⟩
      · refine ⟨?_, ?_⟩
        · split
          · exact hmax
          · exact hmax
        · split
          · exact windowsWF_set_oob cap s.offsets e _ hwf (by omega)
          · exact windowsWF_set_oob cap s.offsets e _ hwf (by omega)

theorem agentOp_preserves (cap : Nat) (s : AgentState) (op : AgentOp)
    (hmax : s.max_agents = cap) (hwf : windowsWF cap s.offsets) :
    (applyAgentOp s op).max_agents = cap ∧ windowsWF cap (applyAgentOp s op).offsets := by
  cases op with
  | clear =>
    refine ⟨hmax, ?_⟩
    simp only [applyAgentOp, AgentState.clear, hmax]
    exact windowsWF_fresh cap s.offsets.length
  | add e r =>
    by_cases he : e < s.offsets.length
    · have hsome := windowsWF_getD cap s.offsets e he
      obtain ⟨h1, h2, h3⟩ := hwf e _ hsome
      by_cases hcap : (s.offsets.getD e (0, 0)).1 + s.max_agents ≤ (s.offsets.getD e (0, 0)).2
      · simp only [applyAgentOp, AgentState.add_agent, if_pos hcap]
        exact ⟨hmax, hwf⟩
      · simp only [applyAgentOp, AgentState.add_agent, if_neg hcap]
        refine ⟨hmax, windowsWF_set cap s.offsets e _ hwf ?_⟩
        refine ⟨by simpa [hmax] using h1, by omega, ?_⟩
        simp only [hmax] at hcap h3 ⊢
        omega
    · by_cases hcap : (s.offsets.getD e (0, 0)).1 + s.max_agents ≤ (s.offsets.getD e (0, 0)).2
      · simp only [applyAgentOp, AgentState.add_agent, if_pos hcap]
        exact ⟨hmax, hwf⟩
      · simp only [applyAgentOp, AgentState.add_agent, if_neg hcap]
        exact ⟨hmax, windowsWF_set_oob cap s.offsets e _ hwf (by omega)⟩
  | remove e i =>
    by_cases hoob : (s.offsets.getD e (0, 0)).2 - (s.offsets.getD e (0, 0)).1 ≤ i
    · simp only [applyAgentOp, AgentState.remove_agent, if_pos hoob]
      exact ⟨hmax, hwf⟩
    · simp only [applyAgentOp, AgentState.remove_agent, if_neg hoob]
      by_cases he : e < s.offsets.length
      · have hsome := windowsWF_getD cap s.offsets e he
        obtain ⟨h1, h2, h3⟩ := hwf e _ hsome
        refine ⟨?_, ?_⟩
        · split
          · exact hmax
          · exact hmax
        · split
          · exact windowsWF_set cap s.offsets e _ hwf ⟨h1, by omega, by omega⟩
          · exact windowsWF_set cap s.offsets e _ hwf ⟨h1, by omega, by omega⟩
      · refine ⟨?_, ?_⟩
        · split
          · exact hmax
          · exact hmax
        · split
          · exact windowsWF_set_oob cap s.offsets e _ hwf (by omega)
          · exact windowsWF_set_oob cap s.offsets e _ hwf (by omega)

theorem applyFireOps_inv (cap : Nat) (ops : List FireOp) :
    ∀ s : EnvState, s.max_fires = cap → windowsWF cap s.offsets →
      (applyFireOps s ops).max_fires = cap ∧
        windowsWF cap (applyFireOps s ops).offsets := by
  induction ops with
  | nil => intro s hmax hwf; exact ⟨hmax, hwf⟩
  | cons op rest ih =>
    intro s hmax hwf
    obtain ⟨h1, h2⟩ := fireOp_preserves cap s op hmax hwf
    exact ih (applyFireOp s op) h1 h2

theorem applyAgentOps_inv (cap : Nat) (ops : List AgentOp) :
    ∀ s : AgentState, s.max_agents = cap → windowsWF cap s.offsets →
      (applyAgentOps s ops).max_agents = cap ∧
        windowsWF cap (applyAgentOps s ops).offsets := by
  induction ops with
  | nil => intro s hmax hwf; exact ⟨hmax, hwf⟩
  | cons op rest ih =>
    intro s hmax hwf
    obtain ⟨h1, h2⟩ := agentOp_preserves cap s op hmax hwf
    exact ih (applyAgentOp s op) h1 h2

/-- C6: from `new()` and after any finite sequence of add/remove/clear
operations (successful or failing), every window of the fire store and of
the agent store still starts at `env_idx * cap`, holds at most `cap` live
entries, and windows of distinct environments never overlap.  Any prefix of
`ops` is itself such a sequence, so the invariant holds after each
operation. -/
theorem C6_window_invariants (num_envs cap : Nat) (grid : Nat × Nat)
    (fops : List FireOp) (aops : List AgentOp) :
    (windowsWF cap (applyFireOps (EnvState.new num_envs cap grid) fops).offsets ∧
      windowsDisjoint (applyFireOps (EnvState.new num_envs cap grid) fops).offsets) ∧
    (windowsWF cap (applyAgentOps (AgentState.new num_envs cap) aops).offsets ∧
      windowsDisjoint (applyAgentOps (AgentState.new num_envs cap) aops).offsets) := by
  have hf := applyFireOps_inv cap fops (EnvState.new num_envs cap grid) rfl
    (windowsWF_fresh cap num_envs)
  have ha := applyAgentOps_inv cap aops (AgentState.new num_envs cap) rfl
    (windowsWF_fresh cap num_envs)
  exact ⟨⟨hf.2, windowsWF_disjoint cap _ hf.2⟩, ⟨ha.2, windowsWF_disjoint cap _ ha.2⟩⟩

/-! Claims C4 and C10: the `remove_fire` swap-delete bug. -/

/-- The live fire records of environment `e` after a `remove_fire` call
(`none` when the call failed). -/
def fireViewOf (r : Except WildfireError EnvState) (e : Nat) :
    Option (List (Nat × Nat × Nat × Nat)) :=
  match r with
  | .ok s => some (s.fire_view e)
  | .error _ => none

/-- The live agent records of environment `e` after a `remove_agent` call. -/
def agentViewOf (r : Except WildfireError AgentState) (e : Nat) : Option (List AgentRec) :=
  match r with
  | .ok s => some (s.agent_view e)
  | .error _ => none

/-- The fuel grid after a `remove_fire` call. -/
def fuelOf (r : Except WildfireError EnvState) : Option (List Nat) :=
  match r with
  | .ok s => some s.fuel
  | .error _ => none

/-- Fire store for the C4 failing input: two live fires in environment 0,
A = (y 1, x 2, size 3, intensity 4) and B = (y 5, x 6, size 7, intensity 8);
fuel grid `[9, 10]` (one environment, 1×2 grid). -/
def fireStoreAB : EnvState :=
  { max_fires := 2, offsets := [(0, 2)], fuel := [9, 10],
    y := [1, 5], x := [2, 6], size := [3, 7], intensity := [4, 8] }

/-- Agent store with two live agents C = (10,1,2,3,4,5,6) and
D = (20,5,6,7,8,9,10) in environment 0. -/
def agentStoreCD : AgentState :=
  { max_agents := 2, offsets := [(0, 2)], name := [10, 20], y := [1, 5], x := [2, 6],
    power := [3, 7], suppressant := [4, 8], capacity := [5, 9], equipment := [6, 10] }

/-- C4: the claim requires `remove(e, i)` to copy *every* field of the last
live element into the freed slot, leaving exactly the prior multiset minus
the removed entity.  `EnvState::remove_fire` (state.rs:167-180) swaps only
`size` and `intensity` (plus, wrongly, the per-cell `fuel` grid) and never
swaps `y` or `x`: removing fire A = (1,2,3,4) from {A, B = (5,6,7,8)} leaves
the hybrid survivor (1,2,7,8), which was never in the store — while
`AgentState::remove_agent` (state.rs:319-336) swaps all seven columns and
does satisfy the claim on the analogous input. -/
theorem C4_remove_fire_divergence :
    EnvState.fire_view fireStoreAB 0 = [(1, 2, 3, 4), (5, 6, 7, 8)] ∧
      fireViewOf (EnvState.remove_fire fireStoreAB 0 0) 0 = some [(1, 2, 7, 8)] ∧
      ((1, 2, 7, 8) : Nat × Nat × Nat × Nat) ∉
        [((1, 2, 3, 4) : Nat × Nat × Nat × Nat), (5, 6, 7, 8)] ∧
      AgentState.agent_view agentStoreCD 0 =
        [(10, 1, 2, 3, 4, 5, 6), (20, 5, 6, 7, 8, 9, 10)] ∧
      agentViewOf (AgentState.remove_agent agentStoreCD 0 0) 0 =
        some [(20, 5, 6, 7, 8, 9, 10)] :=
  ⟨rfl, rfl, by decide, rfl, rfl⟩

/-- Fire store for the C10 failing input: two live fires in environment 0 of
a 1×2 grid whose fuel cells hold `[11, 12]`. -/
def fireStoreFuel : EnvState :=
  { max_fires := 2, offsets := [(0, 2)], fuel := [11, 12],
    y := [1, 1], x := [0, 1], size := [3, 4], intensity := [5, 6] }

/-- C10: the frame claim requires every store mutation to leave the fuel
grid untouched.  `EnvState::remove_fire` swaps `self.fuel` at fire-slot
indices `(start + remove_idx, end - 1)`: removing local fire 0 of
environment 0 swaps the two fuel *cells*, changing the grid from `[11, 12]`
to `[12, 11]` (with larger stores the same swap can even index past the fuel
array or into another environment's fuel segment). -/
theorem C10_remove_fire_fuel_frame :
    fireStoreFuel.fuel = [11, 12] ∧
      fuelOf (EnvState.remove_fire fireStoreFuel 0 0) = some [12, 11] ∧
      (some [12, 11] : Option (List Nat)) ≠ some [11, 12] :=
  ⟨rfl, rfl, by decide⟩

/-! Claim C9: configuration validation. -/

/-- The validation failures of `WildfireConfiguration::validate`
(config.rs:35-150), one variant per `eyre!` site. -/
inductive ConfigError where
  | agentsPerSpaceLen (len num_spaces : Nat)
  | firesPerSpaceLen (len num_spaces : Nat)
  | totalAgentsExceeds (total max : Nat)
  | totalFiresExceeds (total max : Nat)
  | maxAgentsSpaceExceeds (idx v max : Nat)
  | maxFiresSpaceExceeds (idx v max : Nat)
  | agentPosOutOfBounds (y x rows cols : Nat)
  | firePosOutOfBounds (y x rows cols : Nat)
  | agentsInSpaceExceed (count idx max : Nat)
  | firesInSpaceExceed (count idx max : Nat)
deriving Repr, DecidableEq

/-- `WildfireConfiguration` of `src/core/src/wildfire/config.rs`
(`u8` grid coordinates and attribute values as `Nat`). -/
structure WildfireConfiguration where
  num_envs : Nat
  grid : Nat × Nat
  max_agents : Nat
  max_fires : Nat
  max_agents_per_space : List Nat
  max_fires_per_space : List Nat
  initial_agents : List (Nat × Nat × Nat × Nat × Nat × Nat × Nat)
  initial_fires : List (Nat × Nat × Nat × Nat × Nat)
  initial_fuel : List Nat
deriving Repr

/-- The per-space maxima loop of `validate`: each zipped pair must not
exceed the global maxima. -/
def checkSpaceMaxima (maxA maxF : Nat) : Nat → List (Nat × Nat) → Except ConfigError Unit
  | _, [] => .ok ()
  | idx, (ma, mf) :: rest =>
      if maxA < ma then .error (.maxAgentsSpaceExceeds idx ma maxA)
      else if maxF < mf then .error (.maxFiresSpaceExceeds idx mf maxF)
      else checkSpaceMaxima maxA maxF (idx + 1) rest

/-- The tally loop of `validate` over `(count, y, x)` triples: reject the
first out-of-bounds position, otherwise accumulate `count` into cell
`y*cols + x` of the accumulator (guarded by `idx < num_spaces` as in the
source). -/
def tallyEntities (err : Nat → Nat → Nat → Nat → ConfigError) (grid : Nat × Nat)
    (ns : Nat) : List (Nat × Nat × Nat) → List Nat → Except ConfigError (List Nat)
  | [], acc => .ok acc
  | t :: rest, acc =>
      if grid.1 ≤ t.2.1 ∨ grid.2 ≤ t.2.2 then .error (err t.2.1 t.2.2 grid.1 grid.2)
      else
        let idx := t.2.1 * grid.2 + t.2.2
        tallyEntities err grid ns rest
          (if idx < ns then acc.set idx (acc.getD idx 0 + t.1) else acc)

/-- The per-space count check loop of `validate`: tallied counts against the
per-space maxima (the source indexes `maxima[idx]`, in range because the
lengths were validated; modelled with `getD`). -/
def checkPerSpace (err : Nat → Nat → Nat → ConfigError) (maxima : List Nat) :
    Nat → List Nat → Except ConfigError Unit
  | _, [] => .ok ()
  | idx, cnt :: rest =>
      if maxima.getD idx 0 < cnt then .error (err cnt idx (maxima.getD idx 0))
      else checkPerSpace err maxima (idx + 1) rest

/-- `WildfireConfiguration::validate` (config.rs:35-150), check for check in
source order.  Note there is no comparison of declared fires against
declared fuel anywhere in the function. -/
def WildfireConfiguration.validate (c : WildfireConfiguration) : Except ConfigError Unit :=
  let ns := c.grid.1 * c.grid.2
  if c.max_agents_per_space.length ≠ ns then
    .error (.agentsPerSpaceLen c.max_agents_per_space.length ns)
  else if c.max_fires_per_space.length ≠ ns then
    .error (.firesPerSpaceLen c.max_fires_per_space.length ns)
  else if c.max_agents < (c.initial_agents.map fun a => a.1).sum then
    .error (.totalAgentsExceeds (c.initial_agents.map fun a => a.1).sum c.max_agents)
  else if c.max_fires < (c.initial_fires.map fun f => f.1).sum then
    .error (.totalFiresExceeds (c.initial_fires.map fun f => f.1).sum c.max_fires)
  else do
    checkSpaceMaxima c.max_agents c.max_fires 0
      (c.max_agents_per_space.zip c.max_fires_per_space)
    let agents_per_space ← tallyEntities .agentPosOutOfBounds c.grid ns
      (c.initial_agents.map fun a => (a.1, a.2.1, a.2.2.1)) (List.replicate ns 0)
    checkPerSpace .agentsInSpaceExceed c.max_agents_per_space 0 agents_per_space
    let fires_per_space ← tallyEntities .firePosOutOfBounds c.grid ns
      (c.initial_fires.map fun f => (f.1, f.2.1, f.2.2.1)) (List.replicate ns 0)
    checkPerSpace .firesInSpaceExceed c.max_fires_per_space 0 fires_per_space

/-- `WildfireEnvironment::new` (wildfire/mod.rs:40-55): `validate` runs
first; only on success is the backing state allocated from the arena. -/
def WildfireEnvironment_new (c : WildfireConfiguration) :
    Except ConfigError (EnvState × AgentState) := do
  WildfireConfiguration.validate c
  .ok (EnvState.new c.num_envs c.max_fires c.grid,
    AgentState.new c.num_envs c.max_agents)

/-- A configuration declaring one fire but zero total fuel, valid in every
respect the code checks. -/
def cfgFiresNoFuel : WildfireConfiguration :=
  { num_envs := 1, grid := (1, 1), max_agents := 1, max_fires := 1,
    max_agents_per_space := [1], max_fires_per_space := [1],
    initial_agents := [], initial_fires := [(1, 0, 0, 5, 5)], initial_fuel := [0] }

/-- C9 counterexample: the claim says validation rejects every configuration
whose total declared fires exceed the total declared fuel.  `validate` never
compares fires to fuel: `cfgFiresNoFuel` declares 1 fire over 0 fuel and is
accepted. -/
theorem C9_counterexample :
    WildfireConfiguration.validate cfgFiresNoFuel = .ok () ∧
      cfgFiresNoFuel.initial_fuel.sum <
        (cfgFiresNoFuel.initial_fires.map fun f => f.1).sum :=
  ⟨rfl, by decide⟩

/-- The total declared count at grid cell `idx = y*cols + x` (the claim's
"total declared initial entities" per cell). -/
def spaceTally (entries : List (Nat × Nat × Nat)) (cols idx : Nat) : Nat :=
  ((entries.filter fun t => t.2.1 * cols + t.2.2 = idx).map fun t => t.1).sum

/-- The tally loop without the error path, for relating `tallyEntities` to
`spaceTally`. -/
def tallyPure (grid : Nat × Nat) (ns : Nat) : List (Nat × Nat × Nat) → List Nat → List Nat
  | [], acc => acc
  | t :: rest, acc =>
      let idx := t.2.1 * grid.2 + t.2.2
      tallyPure grid ns rest (if idx < ns then acc.set idx (acc.getD idx 0 + t.1) else acc)

/-- Modelled from the claim's words, as amended: acceptance requires the
per-space maxima arrays sized `rows*cols`, global totals within the global
maxima, every per-space maximum within the global maximum, every declared
position inside the grid, and every cell's declared total within that cell's
maximum.  No condition mentions fuel. -/
def validSpec (c : WildfireConfiguration) : Prop :=
  c.max_agents_per_space.length = c.grid.1 * c.grid.2 ∧
  c.max_fires_per_space.length = c.grid.1 * c.grid.2 ∧
  (c.initial_agents.map fun a => a.1).sum ≤ c.max_agents ∧
  (c.initial_fires.map fun f => f.1).sum ≤ c.max_fires ∧
  (∀ p ∈ c.max_agents_per_space.zip c.max_fires_per_space,
      p.1 ≤ c.max_agents ∧ p.2 ≤ c.max_fires) ∧
  (∀ a ∈ c.initial_agents, a.2.1 < c.grid.1 ∧ a.2.2.1 < c.grid.2) ∧
  (∀ f ∈ c.initial_fires, f.2.1 < c.grid.1 ∧ f.2.2.1 < c.grid.2) ∧
  (∀ idx, idx < c.grid.1 * c.grid.2 →
      spaceTally (c.initial_agents.map fun a => (a.1, a.2.1, a.2.2.1)) c.grid.2 idx ≤
        c.max_agents_per_space.getD idx 0) ∧
  (∀ idx, idx < c.grid.1 * c.grid.2 →
      spaceTally (c.initial_fires.map fun f => (f.1, f.2.1, f.2.2.1)) c.grid.2 idx ≤
        c.max_fires_per_space.getD idx 0)

theorem except_bind_ok {ε α β : Type} (x : Except ε α) (f : α → Except ε β) (b : β) :
    (x >>= f) = .ok b ↔ ∃ a, x = .ok a ∧ f a = .ok b := by
  cases x with
  | ok a => simp [Bind.bind, Except.bind]
  | error err =>
    simp only [Bind.bind, Except.bind]
    constructor
    · intro h; cases h
    · intro ⟨a, ha, _⟩; cases ha

theorem getD_set_eq (l : List Nat) (i v : Nat) (h : i < l.length) :
    (l.set i v).getD i 0 = v := by
  rw [List.getD_eq_getElem?_getD, List.getElem?_set_eq_of_lt _ h]
  rfl

theorem getD_set_ne (l : List Nat) (i j v : Nat) (h : i ≠ j) :
    (l.set i v).getD j 0 = l.getD j 0 := by
  rw [List.getD_eq_getElem?_getD, List.getElem?_set_ne h, ← List.getD_eq_getElem?_getD]

theorem checkSpaceMaxima_ok (maxA maxF : Nat) :
    ∀ (l : List (Nat × Nat)) (i : Nat),
      checkSpaceMaxima maxA maxF i l = .ok () ↔
        ∀ p ∈ l, p.1 ≤ maxA ∧ p.2 ≤ maxF := by
  intro l
  induction l with
  | nil => intro i; simp [checkSpaceMaxima]
  | cons p rest ih =>
    intro i
    obtain ⟨ma, mf⟩ := p
    simp only [checkSpaceMaxima]
    by_cases h1 : maxA < ma
    · rw [if_pos h1]
      constructor
      · intro h; cases h
      · intro hall; exact absurd (hall (ma, mf) (by simp)).1 (by omega)
    · rw [if_neg h1]
      by_cases h2 : maxF < mf
      · rw [if_pos h2]
        constructor
        · intro h; cases h
        · intro hall; exact absurd (hall (ma, mf) (by simp)).2 (by omega)
      · rw [if_neg h2, ih (i + 1)]
        constructor
        · intro h p hp
          rcases List.mem_cons.mp hp with heq | hp'
          · subst heq; exact ⟨by omega, by omega⟩
          · exact h p hp'
        · intro hall p hp
          exact hall p (List.mem_cons_of_mem _ hp)

theorem checkPerSpace_ok (err : Nat → Nat → Nat → ConfigError) (maxima : List Nat) :
    ∀ (l : List Nat) (i : Nat),
      checkPerSpace err maxima i l = .ok () ↔
        ∀ j, j < l.length → l.getD j 0 ≤ maxima.getD (i + j) 0 := by
  intro l
  induction l with
  | nil => intro i; simp [checkPerSpace]
  | cons cnt rest ih =>
    intro i
    simp only [checkPerSpace]
    by_cases h1 : maxima.getD i 0 < cnt
    · rw [if_pos h1]
      constructor
      · intro h; cases h
      · intro hall
        have h0 := hall 0 (by simp)
        simp only [List.getD_cons_zero, Nat.add_zero] at h0
        omega
    · rw [if_neg h1, ih (i + 1)]
      constructor
      · intro h j hj
        cases j with
        | zero =>
          simp only [List.getD_cons_zero, Nat.add_zero]
          omega
        | succ j =>
          have hh := h j (by simpa using hj)
          simp only [List.getD_cons_succ]
          have harith : i + 1 + j = i + (j + 1) := by omega
          rwa [harith] at hh
      · intro hall j hj
        have hh := hall (j + 1) (by simpa using hj)
        simp only [List.getD_cons_succ] at hh
        have harith : i + (j + 1) = i + 1 + j := by omega
        rwa [harith] at hh

theorem tallyEntities_ok_of_bounds (err : Nat → Nat → Nat → Nat → ConfigError)
    (grid : Nat × Nat) (ns : Nat) :
    ∀ (l : List (Nat × Nat × Nat)) (acc : List Nat),
      (∀ t ∈ l, t.2.1 < grid.1 ∧ t.2.2 < grid.2) →
      tallyEntities err grid ns l acc = .ok (tallyPure grid ns l acc) := by
  intro l
  induction l with
  | nil => intro acc _; simp [tallyEntities, tallyPure]
  | cons t rest ih =>
    intro acc hb
    have ht := hb t (by simp)
    simp only [tallyEntities, tallyPure]
    rw [if_neg (by omega)]
    exact ih _ fun q hq => hb q (List.mem_cons_of_mem _ hq)

theorem tallyEntities_bounds_of_ok (err : Nat → Nat → Nat → Nat → ConfigError)
    (grid : Nat × Nat) (ns : Nat) :
    ∀ (l : List (Nat × Nat × Nat)) (acc out : List Nat),
      tallyEntities err grid ns l acc = .ok out →
      ∀ t ∈ l, t.2.1 < grid.1 ∧ t.2.2 < grid.2 := by
  intro l
  induction l with
  | nil => intro acc out _ t ht; cases ht
  | cons t rest ih =>
    intro acc out h q hq
    simp only [tallyEntities] at h
    by_cases hoob : grid.1 ≤ t.2.1 ∨ grid.2 ≤ t.2.2
    · rw [if_pos hoob] at h; cases h
    · rw [if_neg hoob] at h
      rcases List.mem_cons.mp hq with heq | hq'
      · subst heq; omega
      · exact ih _ out h q hq'

theorem tallyPure_length (grid : Nat × Nat) (ns : Nat) :
    ∀ (l : List (Nat × Nat × Nat)) (acc : List Nat),
      (tallyPure grid ns l acc).length = acc.length := by
  intro l
  induction l with
  | nil => intro acc; simp [tallyPure]
  | cons t rest ih =>
    intro acc
    simp only [tallyPure]
    rw [ih]
    split <;> simp

theorem spaceTally_cons (t : Nat × Nat × Nat) (rest : List (Nat × Nat × Nat))
    (cols idx : Nat) :
    spaceTally (t :: rest) cols idx =
      (if t.2.1 * cols + t.2.2 = idx then t.1 else 0) + spaceTally rest cols idx := by
  simp only [spaceTally, List.filter]
  by_cases h : t.2.1 * cols + t.2.2 = idx
  · simp [h]
  · simp [h]

theorem tallyPure_getD (grid : Nat × Nat) (ns : Nat) :
    ∀ (l : List (Nat × Nat × Nat)) (acc : List Nat), acc.length = ns →
      ∀ idx, idx < ns →
        (tallyPure grid ns l acc).getD idx 0 =
          acc.getD idx 0 + spaceTally l grid.2 idx := by
  intro l
  induction l with
  | nil => intro acc _ idx _; simp [tallyPure, spaceTally]
  | cons t rest ih =>
    intro acc hlen idx hidx
    simp only [tallyPure]
    by_cases hcell : t.2.1 * grid.2 + t.2.2 < ns
    · rw [if_pos hcell]
      rw [ih _ (by simp [hlen]) idx hidx, spaceTally_cons]
      by_cases heq : t.2.1 * grid.2 + t.2.2 = idx
      · rw [heq, getD_set_eq _ _ _ (by omega)]
        simp only [if_true, eq_self_iff_true]
        omega
      · rw [getD_set_ne _ _ _ _ heq, if_neg heq]
        omega
    · rw [if_neg hcell]
      rw [ih _ hlen idx hidx, spaceTally_cons]
      rw [if_neg (by omega)]
      omega

theorem replicate_getD_zero (n idx : Nat) : (List.replicate n (0 : Nat)).getD idx 0 = 0 := by
  rw [List.getD_eq_getElem?_getD]
  rcases Nat.lt_or_ge idx n with h | h
  · rw [List.getElem?_replicate_of_lt h]
    rfl
  · rw [List.getElem?_eq_none (by simpa using h)]
    rfl

/-- C9 (amended): `validate` accepts exactly the configurations whose
per-space maxima arrays are sized `rows*cols`, whose global totals fit the
global maxima, whose per-space maxima do not exceed the global maxima, whose
declared positions are in bounds, and whose per-cell declared totals fit the
per-cell maxima; it performs no fires-versus-fuel comparison.  A validation
error makes `WildfireEnvironment::new` fail before any state is built. -/
theorem C9_validation (c : WildfireConfiguration) :
    (WildfireConfiguration.validate c = .ok () ↔ validSpec c) ∧
    (∀ err, WildfireConfiguration.validate c = .error err →
      WildfireEnvironment_new c = .error err) := by
  constructor
  · constructor
    · intro h
      simp only [WildfireConfiguration.validate] at h
      by_cases h1 : c.max_agents_per_space.length ≠ c.grid.1 * c.grid.2
      · rw [if_pos h1] at h; cases h
      · rw [if_neg h1] at h
        by_cases h2 : c.max_fires_per_space.length ≠ c.grid.1 * c.grid.2
        · rw [if_pos h2] at h; cases h
        · rw [if_neg h2] at h
          by_cases h3 : c.max_agents < (c.initial_agents.map fun a => a.1).sum
          · rw [if_pos h3] at h; cases h
          · rw [if_neg h3] at h
            by_cases h4 : c.max_fires < (c.initial_fires.map fun f => f.1).sum
            · rw [if_pos h4] at h; cases h
            · rw [if_neg h4] at h
              rw [except_bind_ok] at h
              obtain ⟨u1, hcsm, h⟩ := h
              rw [except_bind_ok] at h
              obtain ⟨aps, htally, h⟩ := h
              rw [except_bind_ok] at h
              obtain ⟨u2, hcps, h⟩ := h
              rw [except_bind_ok] at h
              obtain ⟨fps, hftally, hfcps⟩ := h
              have habounds := tallyEntities_bounds_of_ok _ c.grid _ _ _ _ htally
              have hfbounds := tallyEntities_bounds_of_ok _ c.grid _ _ _ _ hftally
              have haps : aps = tallyPure c.grid (c.grid.1 * c.grid.2)
                  (c.initial_agents.map fun a => (a.1, a.2.1, a.2.2.1))
                  (List.replicate (c.grid.1 * c.grid.2) 0) := by
                have := tallyEntities_ok_of_bounds .agentPosOutOfBounds c.grid
                  (c.grid.1 * c.grid.2)
                  (c.initial_agents.map fun a => (a.1, a.2.1, a.2.2.1))
                  (List.replicate (c.grid.1 * c.grid.2) 0) habounds
                rw [this] at htally
                exact (Except.ok.injEq _ _ ▸ htally).symm
              have hfps : fps = tallyPure c.grid (c.grid.1 * c.grid.2)
                  (c.initial_fires.map fun f => (f.1, f.2.1, f.2.2.1))
                  (List.replicate (c.grid.1 * c.grid.2) 0) := by
                have := tallyEntities_ok_of_bounds .firePosOutOfBounds c.grid
                  (c.grid.1 * c.grid.2)
                  (c.initial_fires.map fun f => (f.1, f.2.1, f.2.2.1))
                  (List.replicate (c.grid.1 * c.grid.2) 0) hfbounds
                rw [this] at hftally
                exact (Except.ok.injEq _ _ ▸ hftally).symm
              have hapslen : aps.length = c.grid.1 * c.grid.2 := by
                rw [haps, tallyPure_length]
                simp
              have hfpslen : fps.length = c.grid.1 * c.grid.2 := by
                rw [hfps, tallyPure_length]
                simp
              refine ⟨by omega, by omega, by omega, by omega,
                (checkSpaceMaxima_ok c.max_agents c.max_fires _ 0).mp hcsm, ?_, ?_, ?_, ?_⟩
              · intro a ha
                exact habounds (a.1, a.2.1, a.2.2.1) (List.mem_map_of_mem _ ha)
              · intro f hf
                exact hfbounds (f.1, f.2.1, f.2.2.1) (List.mem_map_of_mem _ hf)
              · intro idx hidx
                have hc := (checkPerSpace_ok .agentsInSpaceExceed c.max_agents_per_space
                  aps 0).mp hcps idx (by omega)
                rw [haps, tallyPure_getD c.grid _ _ _ (by simp) idx hidx,
                  replicate_getD_zero] at hc
                simpa using hc
              · intro idx hidx
                have hc := (checkPerSpace_ok .firesInSpaceExceed c.max_fires_per_space
                  fps 0).mp hfcps idx (by omega)
                rw [hfps, tallyPure_getD c.grid _ _ _ (by simp) idx hidx,
                  replicate_getD_zero] at hc
                simpa using hc
    · intro hs
      obtain ⟨s1, s2, s3, s4, s5, s6, s7, s8, s9⟩ := hs
      have habounds : ∀ t ∈ c.initial_agents.map fun a => (a.1, a.2.1, a.2.2.1),
          t.2.1 < c.grid.1 ∧ t.2.2 < c.grid.2 := by
        intro t ht
        obtain ⟨a, ha, rfl⟩ := List.mem_map.mp ht
        exact s6 a ha
      have hfbounds : ∀ t ∈ c.initial_fires.map fun f => (f.1, f.2.1, f.2.2.1),
          t.2.1 < c.grid.1 ∧ t.2.2 < c.grid.2 := by
        intro t ht
        obtain ⟨f, hf, rfl⟩ := List.mem_map.mp ht
        exact s7 f hf
      simp only [WildfireConfiguration.validate]
      rw [if_neg (by omega), if_neg (by omega), if_neg (by omega), if_neg (by omega)]
      rw [except_bind_ok]
      refine ⟨(), (checkSpaceMaxima_ok c.max_agents c.max_fires _ 0).mpr s5, ?_⟩
      rw [except_bind_ok]
      refine ⟨_, tallyEntities_ok_of_bounds .agentPosOutOfBounds c.grid _ _ _ habounds, ?_⟩
      rw [except_bind_ok]
      refine ⟨(), ?_, ?_⟩
      · rw [checkPerSpace_ok]
        intro j hj
        rw [tallyPure_length] at hj
        simp only [List.length_replicate] at hj
        rw [tallyPure_getD c.grid _ _ _ (by simp) j hj, replicate_getD_zero]
        simpa using s8 j hj
      · rw [except_bind_ok]
        refine ⟨_, tallyEntities_ok_of_bounds .firePosOutOfBounds c.grid _ _ _ hfbounds, ?_⟩
        rw [checkPerSpace_ok]
        intro j hj
        rw [tallyPure_length] at hj
        simp only [List.length_replicate] at hj
        rw [tallyPure_getD c.grid _ _ _ (by simp) j hj, replicate_getD_zero]
        simpa using s9 j hj
  · intro err herr
    simp only [WildfireEnvironment_new, bind_pure_comp]
    rw [herr]
    rfl

/-! Claim C8: seeded reset. -/

/-- The `flat_map`/`repeat_with` loop of `reset`: each
`(count, y, x, power, suppressant, capacity, equipment)` group expands into
`count` agents, each drawing a fresh identity from the process entropy
stream `u` — the source calls `Uuid::new_v4()`, not the instance's seeded
rng. -/
def expand_agents (u : Nat → Nat) :
    List (Nat × Nat × Nat × Nat × Nat × Nat × Nat) → Nat → List AgentRec
  | [], _ => []
  | g :: rest, k =>
      ((List.range g.1).map fun j => (u (k + j), g.2.1, g.2.2.1, g.2.2.2.1,
        g.2.2.2.2.1, g.2.2.2.2.2.1, g.2.2.2.2.2.2)) ++ expand_agents u rest (k + g.1)

/-- The `flat_map`/`repeat_n` loop of `reset`: each
`(count, y, x, size, intensity)` group expands into `count` identical fire
records. -/
def expand_fires : List (Nat × Nat × Nat × Nat × Nat) → List (Nat × Nat × Nat × Nat)
  | [] => []
  | g :: rest => List.replicate g.1 g.2 ++ expand_fires rest

/-- `fuel[start..start+len].copy_from_slice(&initial_fuel)` (Rust panics on
a length mismatch; the modelled runs keep `initial_fuel.length` equal to the
grid size). -/
def write_slice (dst : List Nat) (offset : Nat) (src : List Nat) : List Nat :=
  dst.take offset ++ src ++ dst.drop (offset + src.length)

/-- `WildfireEnvironment::reset` (wildfire/mod.rs:57-102): clear both
stores, expand the declared agent groups once (fresh entropy identities) and
add that same list to every environment, expand and add the fire groups,
then copy the configured initial fuel into every environment's fuel
segment. -/
def reset (cfg : WildfireConfiguration) (st : EnvState × AgentState) (u : Nat → Nat) :
    Except WildfireError (EnvState × AgentState) := do
  let env0 := st.1.clear
  let ag0 := st.2.clear
  let agents := expand_agents u cfg.initial_agents 0
  let ag1 ← List.foldlM (fun acc e => AgentState.add_agents acc e agents) ag0
    (List.range cfg.num_envs)
  let fires := expand_fires cfg.initial_fires
  let env1 ← List.foldlM (fun acc e => EnvState.add_fires acc e fires) env0
    (List.range cfg.num_envs)
  let fuel1 := List.foldl
    (fun f e => write_slice f (e * (cfg.grid.1 * cfg.grid.2)) cfg.initial_fuel)
    env1.fuel (List.range cfg.num_envs)
  .ok ({ env1 with fuel := fuel1 }, ag1)

/-- `WildfireEnvironment::reset_seeded(seed)` (wildfire/mod.rs:104-108):
re-seed `self.rng` from the seed, then call `reset` — but `reset` never
reads `self.rng`; identities come from the entropy stream `u`, so the seed
parameter has no effect on the resulting state. -/
def reset_seeded (cfg : WildfireConfiguration) (_seed : Nat)
    (st : EnvState × AgentState) (u : Nat → Nat) :
    Except WildfireError (EnvState × AgentState) :=
  reset cfg st u

/-- The observable outcome of a reset: environment 0's live agents, live
fires and the fuel grid (`none` if the reset failed). -/
def resetView (r : Except WildfireError (EnvState × AgentState)) :
    Option (List AgentRec × List (Nat × Nat × Nat × Nat) × List Nat) :=
  match r with
  | .ok st => some (st.2.agent_view 0, st.1.fire_view 0, st.1.fuel)
  | .error _ => none

/-- One environment, 1×1 grid, one declared agent and one declared fire. -/
def cfgReset : WildfireConfiguration :=
  { num_envs := 1, grid := (1, 1), max_agents := 1, max_fires := 1,
    max_agents_per_space := [1], max_fires_per_space := [1],
    initial_agents := [(1, 0, 0, 1, 2, 3, 4)], initial_fires := [(1, 0, 0, 5, 6)],
    initial_fuel := [7] }

/-- Freshly constructed state for `cfgReset`. -/
def resetSt0 : EnvState × AgentState := (EnvState.new 1 1 (1, 1), AgentState.new 1 1)

/-- Entropy drawn by the first `reset_seeded(42)` call. -/
def uuidRun1 : Nat → Nat := fun k => 100 + k

/-- Entropy drawn by the second `reset_seeded(42)` call: `Uuid::new_v4()`
does not repeat across calls and is independent of the seed. -/
def uuidRun2 : Nat → Nat := fun k => 200 + k

/-- First `reset_seeded(42)` from the fresh state. -/
def resetRun1 : Except WildfireError (EnvState × AgentState) :=
  reset_seeded cfgReset 42 resetSt0 uuidRun1

/-- Second `reset_seeded(42)`, from the state the first call produced. -/
def resetRun2 : Except WildfireError (EnvState × AgentState) :=
  reset_seeded cfgReset 42
    (match resetRun1 with | .ok st => st | .error _ => resetSt0) uuidRun2

/-- C8: calling `reset_seeded(42)` twice in a row yields identical fires and
identical fuel, but *different* agent identity sets (100 vs 200): identity
generation uses `Uuid::new_v4()` from process entropy, ignoring the freshly
seeded rng, so the resulting entity sets are not identical as the claim
requires (spec §9 flags exactly this as a correctness gap in the source). -/
theorem C8_reset_not_reproducible :
    resetView resetRun1 = some ([(100, 0, 0, 1, 2, 3, 4)], [(0, 0, 5, 6)], [7]) ∧
      resetView resetRun2 = some ([(200, 0, 0, 1, 2, 3, 4)], [(0, 0, 5, 6)], [7]) ∧
      (100 : Nat) ≠ 200 :=
  ⟨rfl, rfl, by decide⟩

end FreeRange
